import Mathlib

/-!
Shallow embedding of `jnk0le::Ringbuffer` (src/ringbuffer.hpp) and proofs of
its specification claims.

The C++ class is parameterized by an element type `T`, a power-of-two
`buffer_size` (called `N` here) and an unsigned index type `index_t` whose
arithmetic wraps modulo `M = 2^width`.  The static_asserts of the class
require `N` to be a power of two and `N - 1 <= max(index_t) >> 1`,
i.e. `2 * N <= M`.

Counters `head` and `tail` are modelled as natural numbers that are kept
reduced modulo `M`; every `index_t` addition is performed `% M` and the
`index_t` subtraction `a - b` is the wrapping subtraction `wsub M a b`.
The element array `data_buff` is a `List` of length `N`, indexed through the
source's bit mask `x &&& (N - 1)`.
-/

namespace RingBufferSpec

/-- Wrapping (unsigned) subtraction `a - b` modulo `M`: the value computed by
`index_t` subtraction for an index type with `M = 2^width` values. -/
def wsub (M a b : Nat) : Nat := (a + M - b % M) % M

/-- Compile-time constraints enforced by the class's static_asserts:
`buffer_size` is a nonzero power of two and
`buffer_mask <= max(index_t) >> 1`, i.e. `2 * N <= M` where `M = 2^width`
is the number of values of the unsigned counter type `index_t`. -/
structure Valid (N M : Nat) : Prop where
  pow_N : ∃ k, N = 2 ^ k
  pow_M : ∃ w, M = 2 ^ w
  size_le : 2 * N ≤ M

/-- State of a `Ringbuffer` instance: the two monotonically increasing
counters (kept reduced modulo `M`) and the backing array `data_buff`
(a list of length `N`). -/
structure Ringbuffer (α : Type) where
  head : Nat
  tail : Nat
  data_buff : List α

section Ops

variable {α : Type} [Inhabited α] (N M : Nat)

/-- Bitwise mask for a given buffer size (`buffer_mask = buffer_size - 1`). -/
def buffer_mask : Nat := N - 1

/-- Embeds `readAvailable()`: `head - tail` in `index_t` arithmetic. -/
def readAvailable (s : Ringbuffer α) : Nat := wsub M s.head s.tail

/-- Embeds `writeAvailable()`: `buffer_size - (head - tail)`.  The outer
subtraction is written as wrapping subtraction as well; on every state
satisfying the invariant `head - tail <= N` it never wraps, so this agrees
with the C++ value for any width of `size_t`. -/
def writeAvailable (s : Ringbuffer α) : Nat :=
  wsub M N (wsub M s.head s.tail)

/-- Embeds `isEmpty()`. -/
def isEmpty (s : Ringbuffer α) : Bool := readAvailable M s = 0

/-- Embeds `isFull()`. -/
def isFull (s : Ringbuffer α) : Bool := writeAvailable N M s = 0

/-- Embeds `insert(T data)` (the pointer overload `insert(const T*)` is the
same code on the pointee).  Returns the `bool` result and the state after
the call. -/
def insert (s : Ringbuffer α) (data : α) : Bool × Ringbuffer α :=
  let tmp_head := s.head
  if wsub M tmp_head s.tail = N then (false, s)
  else
    (true, { s with data_buff := s.data_buff.set (tmp_head &&& buffer_mask N) data,
                    head := (tmp_head + 1) % M })

/-- Embeds `insertFromCallbackWhenAvailable(T (*get_data_callback)(void))`.
The callback is modelled as a pure function; the last component counts how
many times the callback was invoked during the call. -/
def insertFromCallbackWhenAvailable (s : Ringbuffer α) (get_data_callback : Unit → α) :
    Bool × Ringbuffer α × Nat :=
  let tmp_head := s.head
  if wsub M tmp_head s.tail = N then (false, s, 0)
  else
    (true, { s with data_buff :=
                      s.data_buff.set (tmp_head &&& buffer_mask N) (get_data_callback ()),
                    head := (tmp_head + 1) % M }, 1)

/-- Embeds the argumentless `remove()` (drop one element without reading). -/
def removeOne (s : Ringbuffer α) : Bool × Ringbuffer α :=
  let tmp_tail := s.tail
  if tmp_tail = s.head then (false, s)
  else (true, { s with tail := (tmp_tail + 1) % M })

/-- Embeds `remove(size_t cnt)` (drop up to `cnt` elements without reading). -/
def removeCnt (s : Ringbuffer α) (cnt : Nat) : Nat × Ringbuffer α :=
  let tmp_tail := s.tail
  let avail := wsub M s.head tmp_tail
  let cnt2 := if cnt > avail then avail else cnt
  (cnt2, { s with tail := (tmp_tail + cnt2) % M })

/-- Embeds `remove(T* data)` (and the reference overload `remove(T&)`, which
just forwards to it).  The removed element is returned as `some _`; `none`
means the call returned `false` and did not touch the output location. -/
def removePtr (s : Ringbuffer α) : Option α × Ringbuffer α :=
  let tmp_tail := s.tail
  if tmp_tail = s.head then (none, s)
  else
    (some (s.data_buff.getD (tmp_tail &&& buffer_mask N) default),
     { s with tail := (tmp_tail + 1) % M })

/-- Embeds `peek()`; the returned pointer is modelled by the pointee value. -/
def peek (s : Ringbuffer α) : Option α :=
  let tmp_tail := s.tail
  if tmp_tail = s.head then none
  else some (s.data_buff.getD (tmp_tail &&& buffer_mask N) default)

/-- Embeds `at(size_t index)`; the returned pointer is modelled by the
pointee value, `none` standing for `nullptr`. -/
def atIdx (s : Ringbuffer α) (index : Nat) : Option α :=
  let tmp_tail := s.tail
  if wsub M s.head tmp_tail ≤ index then none
  else some (s.data_buff.getD ((tmp_tail + index) &&& buffer_mask N) default)

/-- Embeds `consumerClear()`: `tail.store(head.load())`. -/
def consumerClear (s : Ringbuffer α) : Ringbuffer α := { s with tail := s.head }

/-- Embeds `producerClear()`, which (see the comment in the source about
underflow during a concurrent consumer read) simply calls `consumerClear()`. -/
def producerClear (s : Ringbuffer α) : Ringbuffer α := consumerClear s

/-- Writes the elements of `src` into consecutive slots of `buff` starting at
counter position `h` masked by `buffer_mask`; the loop body of `writeBuff`.
The counter `h` is not reduced modulo `M` here: since `N` divides `M`,
masking absorbs any wraparound of the `index_t` counter. -/
def writeSlots (buff : List α) (src : List α) (h : Nat) : List α :=
  match src with
  | [] => buff
  | x :: rest => writeSlots (buff.set (h &&& buffer_mask N) x) rest (h + 1)

/-- Reads `n` elements from consecutive slots of `buff` starting at counter
position `t` masked by `buffer_mask`; the loop body of `readBuff`. -/
def readSlots (buff : List α) (t n : Nat) : List α :=
  match n with
  | 0 => []
  | m + 1 => buff.getD (t &&& buffer_mask N) default :: readSlots buff (t + 1) m

/-- Embeds the single-shot `writeBuff(const T* buff, size_t count)`.
Returns the number of elements written and the state after the call.
The C++ caller guarantees that `buff` holds at least `count` elements;
`List.take` reads exactly the `to_write` elements the loop reads. -/
def writeBuff (s : Ringbuffer α) (buff : List α) (count : Nat) : Nat × Ringbuffer α :=
  let tmp_head := s.head
  let available := wsub M N (wsub M tmp_head s.tail)
  let to_write := if available < count then available else count
  (to_write,
   { s with data_buff := writeSlots N s.data_buff (buff.take to_write) tmp_head,
            head := (tmp_head + to_write) % M })

/-- Embeds the single-shot `readBuff(T* buff, size_t count)`.  Returns the
number of elements read, the elements stored into the caller's buffer, and
the state after the call. -/
def readBuff (s : Ringbuffer α) (count : Nat) : Nat × List α × Ringbuffer α :=
  let tmp_tail := s.tail
  let available := wsub M s.head tmp_tail
  let to_read := if available < count then available else count
  (to_read, readSlots N s.data_buff tmp_tail to_read,
   { s with tail := (tmp_tail + to_read) % M })

/-- Embeds the `while(written < count)` loop of the callback variant
`writeBuff(const T*, size_t, size_t, void(*)())` from its second iteration
on, where `to_write` has been reset to `count - written`.  The last
component counts how many times the call reached the callback invocation
site (the code guards it only by `execute_data_callback != nullptr`).
The model is sequential: no concurrent consumer runs between iterations,
exactly as in a quiescent execution of the C++ loop. -/
def writeBuffLoop (s : Ringbuffer α) (buff : List α) (count written cbs : Nat) :
    Nat × Ringbuffer α × Nat :=
  if hw : written < count then
    let available := wsub M N (wsub M s.head s.tail)
    if ha : available = 0 then (written, s, cbs)
    else
      let to_write := min (count - written) available
      writeBuffLoop
        { s with data_buff :=
                   writeSlots N s.data_buff ((buff.drop written).take to_write) s.head,
                 head := (s.head + to_write) % M }
        buff count (written + to_write) (cbs + 1)
  else (written, s, cbs)
termination_by count - written
decreasing_by simp_wf; omega

/-- Embeds `writeBuff(const T* buff, size_t count, size_t count_to_callback,
void (*execute_data_callback)(void))`.  The first pass is capped at
`count_to_callback` when that is nonzero and smaller than `count`; the
remaining passes are `writeBuffLoop`.  Returns the number of elements
written, the state after the call, and the number of callback invocations. -/
def writeBuffCB (s : Ringbuffer α) (buff : List α) (count count_to_callback : Nat) :
    Nat × Ringbuffer α × Nat :=
  let to_write0 :=
    if count_to_callback ≠ 0 ∧ count_to_callback < count then count_to_callback else count
  if 0 < count then
    let available := wsub M N (wsub M s.head s.tail)
    if available = 0 then (0, s, 0)
    else
      let to_write := min to_write0 available
      writeBuffLoop N M
        { s with data_buff := writeSlots N s.data_buff (buff.take to_write) s.head,
                 head := (s.head + to_write) % M }
        buff count to_write 1
  else (0, s, 0)

/-- Embeds the `while(read < count)` loop of the callback variant
`readBuff(T*, size_t, size_t, void(*)())` from its second iteration on;
`acc` accumulates the elements stored into the caller's buffer. -/
def readBuffLoop (s : Ringbuffer α) (acc : List α) (count read cbs : Nat) :
    Nat × List α × Ringbuffer α × Nat :=
  if hr : read < count then
    let available := wsub M s.head s.tail
    if ha : available = 0 then (read, acc, s, cbs)
    else
      let to_read := min (count - read) available
      readBuffLoop { s with tail := (s.tail + to_read) % M }
        (acc ++ readSlots N s.data_buff s.tail to_read) count (read + to_read) (cbs + 1)
  else (read, acc, s, cbs)
termination_by count - read
decreasing_by simp_wf; omega

/-- Embeds `readBuff(T* buff, size_t count, size_t count_to_callback,
void (*execute_data_callback)(void))`.  Returns the number of elements
read, the elements stored into the caller's buffer, the state after the
call, and the number of callback invocations. -/
def readBuffCB (s : Ringbuffer α) (count count_to_callback : Nat) :
    Nat × List α × Ringbuffer α × Nat :=
  let to_read0 :=
    if count_to_callback ≠ 0 ∧ count_to_callback < count then count_to_callback else count
  if 0 < count then
    let available := wsub M s.head s.tail
    if available = 0 then (0, [], s, 0)
    else
      let to_read := min to_read0 available
      readBuffLoop N M { s with tail := (s.tail + to_read) % M }
        (readSlots N s.data_buff s.tail to_read) count to_read 1
  else (0, [], s, 0)

/-- State invariant: both counters are reduced modulo `M`, the backing array
has the configured length, and the wrapping difference `head - tail` (the
occupied-slot count) is at most `N`. -/
def Inv (s : Ringbuffer α) : Prop :=
  s.head < M ∧ s.tail < M ∧ s.data_buff.length = N ∧ wsub M s.head s.tail ≤ N

/-- Abstraction function: the FIFO sequence of unread elements, oldest
first, as laid out in the slots `tail & mask, (tail+1) & mask, ...`. -/
def contents (s : Ringbuffer α) : List α :=
  readSlots N s.data_buff s.tail (wsub M s.head s.tail)

/-- Calls `insert` once per element of `xs`, left to right; the boolean is
the conjunction of all the returned results. -/
def insertList (s : Ringbuffer α) : List α → Bool × Ringbuffer α
  | [] => (true, s)
  | x :: xs =>
    let p := insert N M s x
    let q := insertList p.2 xs
    (p.1 && q.1, q.2)

/-- Calls `remove(T*)` `k` times, collecting the returned values. -/
def removeList (s : Ringbuffer α) : Nat → List (Option α) × Ringbuffer α
  | 0 => ([], s)
  | k + 1 =>
    let p := removePtr N M s
    let q := removeList p.2 k
    (p.1 :: q.1, q.2)

/-- One call of a state-mutating public operation of the class, with
arbitrary arguments. -/
inductive Step : Ringbuffer α → Ringbuffer α → Prop
  | of_insert (s : Ringbuffer α) (x : α) : Step s (insert N M s x).2
  | of_insertFromCallback (s : Ringbuffer α) (cb : Unit → α) :
      Step s (insertFromCallbackWhenAvailable N M s cb).2.1
  | of_removeOne (s : Ringbuffer α) : Step s (removeOne M s).2
  | of_removeCnt (s : Ringbuffer α) (cnt : Nat) : Step s (removeCnt M s cnt).2
  | of_removePtr (s : Ringbuffer α) : Step s (removePtr N M s).2
  | of_writeBuff (s : Ringbuffer α) (buff : List α) (count : Nat) :
      Step s (writeBuff N M s buff count).2
  | of_readBuff (s : Ringbuffer α) (count : Nat) : Step s (readBuff N M s count).2.2
  | of_writeBuffCB (s : Ringbuffer α) (buff : List α) (count ctc : Nat) :
      Step s (writeBuffCB N M s buff count ctc).2.1
  | of_readBuffCB (s : Ringbuffer α) (count ctc : Nat) :
      Step s (readBuffCB N M s count ctc).2.2.1
  | of_producerClear (s : Ringbuffer α) : Step s (producerClear s)
  | of_consumerClear (s : Ringbuffer α) : Step s (consumerClear s)

/-- States reachable from `init` by sequences of public operations. -/
inductive Reachable (init : Ringbuffer α) : Ringbuffer α → Prop
  | refl : Reachable init init
  | tail {s s2 : Ringbuffer α} : Reachable init s → Step N M s s2 → Reachable init s2

end Ops

section ArithLemmas

theorem wsub_cast {M : Nat} (hM : 0 < M) (a b : Nat) :
    (wsub M a b : ℤ) = ((a : ℤ) - b) % M := by
  have hb : b % M < M := Nat.mod_lt _ hM
  have h1 : b % M ≤ a + M := by omega
  unfold wsub
  have h2 : (((a + M - b % M) % M : ℕ) : ℤ) = ((a + M - b % M : ℕ) : ℤ) % (M : ℤ) := by
    push_cast
    ring
  rw [h2]
  have h3 : ((a + M - b % M : ℕ) : ℤ) = (a : ℤ) + M - (b : ℤ) % M := by
    push_cast [h1]
    ring
  rw [h3]
  have h4 : (a : ℤ) + M - (b : ℤ) % M = ((a : ℤ) - (b : ℤ) % M) + M * 1 := by ring
  rw [h4, Int.add_mul_emod_self_left]
  conv_lhs => rw [Int.sub_emod]
  rw [Int.emod_emod_of_dvd _ dvd_rfl, ← Int.sub_emod]

theorem wsub_lt {M : Nat} (hM : 0 < M) (a b : Nat) : wsub M a b < M :=
  Nat.mod_lt _ hM

theorem wsub_self (M a : Nat) : wsub M a a = 0 := by
  unfold wsub
  have h1 : a % M ≤ a := Nat.mod_le _ _
  have h2 : a + M - a % M = (a - a % M) + M := by omega
  rw [h2]
  have h3 : a - a % M = M * (a / M) := by
    have := Nat.div_add_mod a M
    omega
  rw [h3]
  simp [Nat.add_mod, Nat.mul_mod_right]

theorem wsub_mod_left {M : Nat} (hM : 0 < M) (a b : Nat) :
    wsub M (a % M) b = wsub M a b := by
  have := wsub_cast hM (a % M) b
  have h2 := wsub_cast hM a b
  have h3 : ((a % M : ℕ) : ℤ) = (a : ℤ) % M := by push_cast; ring
  rw [h3] at this
  rw [Int.sub_emod ((a : ℤ) % M) b, Int.emod_emod_of_dvd _ dvd_rfl, ← Int.sub_emod] at this
  exact_mod_cast this.trans h2.symm

theorem wsub_mod_right {M : Nat} (hM : 0 < M) (a b : Nat) :
    wsub M a (b % M) = wsub M a b := by
  have := wsub_cast hM a (b % M)
  have h2 := wsub_cast hM a b
  have h3 : ((b % M : ℕ) : ℤ) = (b : ℤ) % M := by push_cast; ring
  rw [h3] at this
  rw [Int.sub_emod (a : ℤ) ((b : ℤ) % M), Int.emod_emod_of_dvd _ dvd_rfl,
    ← Int.sub_emod] at this
  exact_mod_cast this.trans h2.symm

theorem wsub_tail_add {M : Nat} (hM : 0 < M) (t d : Nat) :
    wsub M (t + d) t = d % M := by
  have h1 := wsub_cast hM (t + d) t
  have h2 : ((t : ℤ) + d) - t = d := by ring
  have h3 : ((d % M : ℕ) : ℤ) = (d : ℤ) % M := by push_cast; ring
  have : (wsub M (t + d) t : ℤ) = ((d % M : ℕ) : ℤ) := by
    rw [h1, h3]
    push_cast
    rw [h2]
  exact_mod_cast this

theorem wsub_eq_zero_iff {M : Nat} (hM : 0 < M) (a b : Nat) :
    wsub M a b = 0 ↔ a % M = b % M := by
  have h1 := wsub_cast hM a b
  constructor
  · intro h
    rw [h] at h1
    have h2 : ((a : ℤ) - b) % M = 0 := by exact_mod_cast h1.symm
    have h3 : (a : ℤ) % M = (b : ℤ) % M :=
      Int.emod_eq_emod_iff_emod_sub_eq_zero.mpr h2
    exact_mod_cast h3
  · intro h
    have h3 : (a : ℤ) % M = (b : ℤ) % M := by exact_mod_cast h
    have h2 : ((a : ℤ) - b) % M = 0 := Int.emod_eq_emod_iff_emod_sub_eq_zero.mp h3
    have : (wsub M a b : ℤ) = 0 := by rw [h1, h2]
    exact_mod_cast this

theorem wsub_of_sub {M a b : Nat} (hM : 0 < M) (hba : b ≤ a) (hlt : a - b < M) :
    wsub M a b = a - b := by
  have h1 := wsub_cast hM a b
  have h2 : ((a : ℤ) - b) % M = ((a - b : ℕ) : ℤ) := by
    have h3 : ((a - b : ℕ) : ℤ) = (a : ℤ) - b := by push_cast [hba]; ring
    rw [← h3]
    exact Int.emod_eq_of_lt (by positivity) (by exact_mod_cast hlt)
  have : (wsub M a b : ℤ) = ((a - b : ℕ) : ℤ) := h1.trans h2
  exact_mod_cast this

theorem wsub_add_left {M : Nat} (hM : 0 < M) (a b c : Nat) :
    wsub M ((a + c) % M) b = (wsub M a b + c) % M := by
  have h1 := wsub_mod_left hM (a + c) b
  have h2 := wsub_cast hM (a + c) b
  have h3 := wsub_cast hM a b
  have h4 : ((((wsub M a b) + c) % M : ℕ) : ℤ) = (((wsub M a b : ℤ)) + c) % M := by
    push_cast
    ring
  have h5 : (wsub M ((a + c) % M) b : ℤ) = ((((wsub M a b) + c) % M : ℕ) : ℤ) := by
    rw [h1, h2, h4, h3]
    rw [Int.add_emod (((a : ℤ) - b) % M) c, Int.emod_emod_of_dvd _ dvd_rfl, ← Int.add_emod]
    push_cast
    ring_nf
  exact_mod_cast h5

theorem wsub_sub {M a b c : Nat} (hM : 0 < M) (hc : c ≤ wsub M a b) :
    wsub M a ((b + c) % M) = wsub M a b - c := by
  have hcM : c < M := lt_of_le_of_lt hc (wsub_lt hM a b)
  have h1 := wsub_mod_right hM a (b + c)
  have h2 := wsub_cast hM a (b + c)
  push_cast at h2
  have h3 := wsub_cast hM a b
  have h4 : ((a : ℤ) - ((b : ℤ) + c)) % M = (((a : ℤ) - b) % M - (c : ℤ) % M) % M := by
    have h5 : (a : ℤ) - ((b : ℤ) + c) = ((a : ℤ) - b) - c := by ring
    rw [h5]
    exact Int.sub_emod ((a : ℤ) - b) c M
  have h6 : (c : ℤ) % M = c := Int.emod_eq_of_lt (by positivity) (by exact_mod_cast hcM)
  have h7 : (((a : ℤ) - b) % M - (c : ℤ)) % M = ((wsub M a b : ℤ) - c) % M := by rw [h3]
  have h8 : ((wsub M a b : ℤ) - c) % M = ((wsub M a b - c : ℕ) : ℤ) := by
    have h9 : ((wsub M a b - c : ℕ) : ℤ) = (wsub M a b : ℤ) - c := by push_cast [hc]; ring
    rw [h9]
    exact Int.emod_eq_of_lt (by omega)
      (by have := wsub_lt hM a b; omega)
  have : (wsub M a ((b + c) % M) : ℤ) = ((wsub M a b - c : ℕ) : ℤ) := by
    rw [h1, h2, h4, h6, h7, h8]
  exact_mod_cast this

theorem wsub_mod_small {N M : Nat} (hM : 0 < M) (hNM : N ∣ M) (a b : Nat) :
    a % N = (b + wsub M a b) % N := by
  rcases Nat.eq_zero_or_pos N with hN | hN
  · subst hN
    simp at hNM
    omega
  have h1 := wsub_cast hM a b
  have hdvd : (N : ℤ) ∣ (M : ℤ) := by exact_mod_cast hNM
  have h2 : ((b : ℤ) + wsub M a b) % N = (a : ℤ) % N := by
    rw [Int.add_emod (b : ℤ) _, h1, Int.emod_emod_of_dvd _ hdvd, ← Int.add_emod]
    have h3 : (b : ℤ) + ((a : ℤ) - b) = a := by ring
    rw [h3]
  have h4 : ((a % N : ℕ) : ℤ) = ((( b + wsub M a b) % N : ℕ) : ℤ) := by
    push_cast
    rw [h2]
  exact_mod_cast h4

theorem Valid.N_pos {N M : Nat} (h : Valid N M) : 0 < N := by
  obtain ⟨k, hk⟩ := h.pow_N
  subst hk
  exact Nat.pos_pow_of_pos k (by norm_num)

theorem Valid.M_pos {N M : Nat} (h : Valid N M) : 0 < M := by
  obtain ⟨w, hw⟩ := h.pow_M
  subst hw
  exact Nat.pos_pow_of_pos w (by norm_num)

theorem Valid.N_lt_M {N M : Nat} (h : Valid N M) : N < M := by
  have h1 := h.N_pos
  have h2 := h.size_le
  omega

theorem Valid.dvd {N M : Nat} (h : Valid N M) : N ∣ M := by
  obtain ⟨k, hk⟩ := h.pow_N
  obtain ⟨w, hw⟩ := h.pow_M
  subst hk hw
  have h1 : 2 ^ (k + 1) ≤ 2 ^ w := by
    have := h.size_le
    calc 2 ^ (k + 1) = 2 * 2 ^ k := by ring
    _ ≤ 2 ^ w := this
  have h2 : k + 1 ≤ w := (Nat.pow_le_pow_iff_right (by norm_num)).mp h1
  exact pow_dvd_pow 2 (by omega)

theorem Valid.mask {N M : Nat} (h : Valid N M) (x : Nat) : x &&& (N - 1) = x % N := by
  obtain ⟨k, hk⟩ := h.pow_N
  subst hk
  exact Nat.and_pow_two_sub_one_eq_mod x k

end ArithLemmas

section ListLemmas

variable {α : Type} [Inhabited α] {N : Nat}

theorem getD_set_self (l : List α) (i : Nat) (x : α) (h : i < l.length) :
    (l.set i x).getD i default = x := by
  rw [List.getD_eq_getElem _ _ (by simpa using h)]
  exact List.getElem_set_self _

theorem getD_set_ne (l : List α) {i j : Nat} (x : α) (h : i ≠ j) :
    (l.set i x).getD j default = l.getD j default := by
  rcases Nat.lt_or_ge j l.length with hj | hj
  · rw [List.getD_eq_getElem _ _ (by simpa using hj), List.getD_eq_getElem _ _ hj]
    exact List.getElem_set_ne h _
  · rw [List.getD_eq_default _ _ (by simpa using hj), List.getD_eq_default _ _ hj]

theorem add_mod_ne {t i j : Nat} (hi : i < N) (hj : j < N) (hne : i ≠ j) :
    (t + i) % N ≠ (t + j) % N := by
  intro h
  have h2 : i ≡ j [MOD N] := Nat.ModEq.add_left_cancel' t h
  have h3 : i % N = j % N := h2
  rw [Nat.mod_eq_of_lt hi, Nat.mod_eq_of_lt hj] at h3
  exact hne h3

theorem readSlots_length (buff : List α) (t n : Nat) :
    (readSlots N buff t n).length = n := by
  induction n generalizing t with
  | zero => rfl
  | succ m ih => simp [readSlots, ih]

theorem readSlots_congr {buff1 buff2 : List α} {t n : Nat}
    (h : ∀ i, i < n → buff1.getD ((t + i) &&& buffer_mask N) default
                    = buff2.getD ((t + i) &&& buffer_mask N) default) :
    readSlots N buff1 t n = readSlots N buff2 t n := by
  induction n generalizing t with
  | zero => rfl
  | succ m ih =>
    simp only [readSlots]
    refine congrArg₂ _ ?_ (ih fun i hi => ?_)
    · simpa using h 0 (by omega)
    · have e : t + 1 + i = t + (i + 1) := by omega
      rw [e]
      exact h (i + 1) (by omega)

theorem readSlots_snoc (buff : List α) (t n : Nat) :
    readSlots N buff t (n + 1) =
      readSlots N buff t n ++ [buff.getD ((t + n) &&& buffer_mask N) default] := by
  induction n generalizing t with
  | zero => simp [readSlots]
  | succ m ih =>
    have e : t + (m + 1) = t + 1 + m := by omega
    calc readSlots N buff t (m + 1 + 1)
        = buff.getD (t &&& buffer_mask N) default :: readSlots N buff (t + 1) (m + 1) := rfl
      _ = buff.getD (t &&& buffer_mask N) default ::
            (readSlots N buff (t + 1) m ++
              [buff.getD ((t + 1 + m) &&& buffer_mask N) default]) := by rw [ih]
      _ = readSlots N buff t (m + 1) ++
            [buff.getD ((t + (m + 1)) &&& buffer_mask N) default] := by
          rw [e]
          rfl

theorem readSlots_getElem? (buff : List α) (t : Nat) {n i : Nat} (h : i < n) :
    (readSlots N buff t n)[i]? = some (buff.getD ((t + i) &&& buffer_mask N) default) := by
  induction n generalizing t i with
  | zero => omega
  | succ m ih =>
    cases i with
    | zero => simp [readSlots]
    | succ i2 =>
      have e : t + (i2 + 1) = t + 1 + i2 := by omega
      rw [e]
      simpa [readSlots] using ih (t + 1) (by omega)

theorem writeSlots_length (buff src : List α) (h : Nat) :
    (writeSlots N buff src h).length = buff.length := by
  induction src generalizing buff h with
  | nil => rfl
  | cons x rest ih => simp [writeSlots, ih]

theorem writeSlots_getD_notin (hmask : ∀ x, x &&& buffer_mask N = x % N)
    (buff : List α) {src : List α} {h0 q : Nat}
    (hq : ∀ j, j < src.length → (h0 + j) % N ≠ q) :
    (writeSlots N buff src h0).getD q default = buff.getD q default := by
  induction src generalizing buff h0 with
  | nil => rfl
  | cons x rest ih =>
    simp only [writeSlots]
    rw [ih _ fun j hj => by
      have e : h0 + 1 + j = h0 + (j + 1) := by omega
      rw [e]
      exact hq (j + 1) (by simp; omega)]
    rw [hmask h0]
    exact getD_set_ne _ _ (by simpa using hq 0 (by simp))

theorem writeSlots_getD_at (hmask : ∀ x, x &&& buffer_mask N = x % N)
    {buff src : List α} (hlen : buff.length = N)
    (h0 : Nat) {j : Nat} (hj : j < src.length) (hsrc : src.length ≤ N) :
    (writeSlots N buff src h0).getD ((h0 + j) % N) default = src.getD j default := by
  induction src generalizing buff h0 j with
  | nil => simp at hj
  | cons x rest ih =>
    have hN : 0 < N := by simp at hsrc; omega
    cases j with
    | zero =>
      simp only [writeSlots]
      have e : h0 + 0 = h0 := by omega
      rw [e]
      rw [writeSlots_getD_notin hmask _ fun j2 hj2 => by
        have e2 : h0 + 1 + j2 = h0 + (1 + j2) := by omega
        rw [e2]
        have e3 : h0 = h0 + 0 := by omega
        conv_rhs => rw [e3]
        exact add_mod_ne (by simp at hsrc ⊢; omega) hN (by omega)]
      rw [hmask h0]
      exact getD_set_self _ _ _ (by rw [hlen]; exact Nat.mod_lt _ hN)
    | succ j2 =>
      have e : h0 + (j2 + 1) = h0 + 1 + j2 := by omega
      rw [e]
      simp only [writeSlots]
      rw [ih (by simp [hlen]) (h0 + 1) (by simp at hj; omega) (by simp at hsrc; omega)]
      rfl

theorem readSlots_mod_t (hmask : ∀ x, x &&& buffer_mask N = x % N)
    {t1 t2 : Nat} (h : t1 % N = t2 % N) (buff : List α) (n : Nat) :
    readSlots N buff t1 n = readSlots N buff t2 n := by
  induction n generalizing t1 t2 with
  | zero => rfl
  | succ m ih =>
    have h2 : (t1 + 1) % N = (t2 + 1) % N := by
      rw [Nat.add_mod t1 1, h, ← Nat.add_mod t2 1]
    simp only [readSlots, hmask]
    rw [h, ih h2]

theorem writeSlots_mod_h (hmask : ∀ x, x &&& buffer_mask N = x % N)
    {h1 h2 : Nat} (h : h1 % N = h2 % N) (buff src : List α) :
    writeSlots N buff src h1 = writeSlots N buff src h2 := by
  induction src generalizing buff h1 h2 with
  | nil => rfl
  | cons x rest ih =>
    have h3 : (h1 + 1) % N = (h2 + 1) % N := by
      rw [Nat.add_mod h1 1, h, ← Nat.add_mod h2 1]
    simp only [writeSlots, hmask]
    rw [h, ih h3]

theorem readSlots_take (buff : List α) (t n c : Nat) :
    (readSlots N buff t n).take c = readSlots N buff t (min c n) := by
  induction n generalizing t c with
  | zero => simp [readSlots]
  | succ m ih =>
    cases c with
    | zero => simp [readSlots]
    | succ c2 =>
      rw [Nat.succ_min_succ]
      simp only [readSlots, List.take_succ_cons]
      rw [ih]

theorem readSlots_drop (buff : List α) (t n c : Nat) :
    (readSlots N buff t n).drop c = readSlots N buff (t + c) (n - c) := by
  induction c generalizing t n with
  | zero => simp
  | succ c2 ih =>
    cases n with
    | zero => simp [readSlots]
    | succ m =>
      have e1 : (readSlots N buff t (m + 1)).drop (c2 + 1)
          = (readSlots N buff (t + 1) m).drop c2 := rfl
      rw [e1, ih]
      have e2 : t + 1 + c2 = t + (c2 + 1) := by omega
      have e3 : m - c2 = m + 1 - (c2 + 1) := by omega
      rw [e2, e3]

theorem writeSlots_append (buff xs ys : List α) (h : Nat) :
    writeSlots N buff (xs ++ ys) h
      = writeSlots N (writeSlots N buff xs h) ys (h + xs.length) := by
  induction xs generalizing buff h with
  | nil => simp [writeSlots]
  | cons x rest ih =>
    simp only [List.cons_append, writeSlots, List.length_cons, List.append_eq]
    rw [ih]
    have e : h + 1 + rest.length = h + (rest.length + 1) := by omega
    rw [e]

theorem readSlots_writeSlots (hmask : ∀ x, x &&& buffer_mask N = x % N)
    {buff xs : List α} (hlen : buff.length = N) {t d h0 : Nat}
    (hd : d + xs.length ≤ N) (ht : h0 % N = (t + d) % N) :
    readSlots N (writeSlots N buff xs h0) t (d + xs.length) =
      readSlots N buff t d ++ xs := by
  induction xs generalizing buff d h0 with
  | nil => simp [writeSlots]
  | cons x rest ih =>
    have hN : 0 < N := by simp at hd; omega
    have hdN : d < N := by simp at hd; omega
    simp only [writeSlots, List.length_cons]
    have e1 : d + (rest.length + 1) = (d + 1) + rest.length := by omega
    rw [e1]
    have ht2 : (h0 + 1) % N = (t + (d + 1)) % N := by
      have e2 : t + (d + 1) = (t + d) + 1 := by omega
      rw [Nat.add_mod h0 1, ht, e2, Nat.add_mod (t + d) 1]
    rw [ih (by simp [hlen]) (by simp at hd ⊢; omega) ht2]
    rw [readSlots_snoc]
    have hcongr : readSlots N (buff.set (h0 &&& buffer_mask N) x) t d
        = readSlots N buff t d := by
      refine readSlots_congr fun i hi => ?_
      rw [hmask (t + i), hmask h0, ht]
      exact getD_set_ne _ _ (add_mod_ne hdN (by omega) (by omega))
    have hlast : (buff.set (h0 &&& buffer_mask N) x).getD ((t + d) &&& buffer_mask N) default
        = x := by
      rw [hmask (t + d), hmask h0, ht]
      exact getD_set_self _ _ _ (by rw [hlen]; exact Nat.mod_lt _ hN)
    rw [hcongr, hlast]
    simp

end ListLemmas

section OpSpecs

variable {α : Type} [Inhabited α] {N M : Nat}

theorem contents_length (s : Ringbuffer α) :
    (contents N M s).length = readAvailable M s :=
  readSlots_length _ _ _

theorem tail_eq_head_iff (hM : 0 < M) {s : Ringbuffer α} (hh : s.head < M)
    (ht : s.tail < M) : s.tail = s.head ↔ wsub M s.head s.tail = 0 := by
  rw [wsub_eq_zero_iff hM, Nat.mod_eq_of_lt hh, Nat.mod_eq_of_lt ht]
  constructor <;> (intro h2; omega)

theorem insert_full {s : Ringbuffer α}
    (hfull : readAvailable M s = N) (x : α) : insert N M s x = (false, s) := by
  have h2 : wsub M s.head s.tail = N := hfull
  simp only [insert, if_pos h2]

theorem insert_spec (hv : Valid N M) {s : Ringbuffer α} (hs : Inv N M s) (x : α)
    (hlt : readAvailable M s < N) :
    insert N M s x =
      (true, ⟨(s.head + 1) % M, s.tail,
              s.data_buff.set (s.head &&& buffer_mask N) x⟩) ∧
    Inv N M (insert N M s x).2 ∧
    readAvailable M (insert N M s x).2 = readAvailable M s + 1 ∧
    contents N M (insert N M s x).2 = contents N M s ++ [x] := by
  obtain ⟨hh, ht, hlen, hdN⟩ := hs
  have hM := hv.M_pos
  have hmask : ∀ y, y &&& buffer_mask N = y % N := fun y => hv.mask y
  have hne : ¬ (wsub M s.head s.tail = N) := by
    simp only [readAvailable] at hlt
    omega
  have heq : insert N M s x =
      (true, ⟨(s.head + 1) % M, s.tail,
              s.data_buff.set (s.head &&& buffer_mask N) x⟩) := by
    simp only [insert, if_neg hne]
  have hra : readAvailable M (insert N M s x).2 = readAvailable M s + 1 := by
    rw [heq]
    simp only [readAvailable]
    rw [wsub_add_left hM]
    have hlt2 : wsub M s.head s.tail + 1 < M := by
      have := hv.N_lt_M
      simp only [readAvailable] at hlt
      omega
    exact Nat.mod_eq_of_lt hlt2
  refine ⟨heq, ⟨?_, ?_, ?_, ?_⟩, hra, ?_⟩
  · rw [heq]
    exact Nat.mod_lt _ hM
  · rw [heq]
    exact ht
  · rw [heq]
    simpa using hlen
  · have := hra
    simp only [readAvailable] at this hlt
    rw [this]
    omega
  · rw [heq]
    simp only [contents]
    have hra2 : wsub M ((s.head + 1) % M) s.tail = wsub M s.head s.tail + 1 := by
      rw [wsub_add_left hM]
      refine Nat.mod_eq_of_lt ?_
      have := hv.N_lt_M
      simp only [readAvailable] at hlt
      omega
    rw [hra2]
    have hset : s.data_buff.set (s.head &&& buffer_mask N) x
        = writeSlots N s.data_buff [x] s.head := rfl
    rw [hset]
    have hrepr : s.head % N = (s.tail + wsub M s.head s.tail) % N :=
      wsub_mod_small hM hv.dvd s.head s.tail
    have e : wsub M s.head s.tail + 1 = wsub M s.head s.tail + List.length [x] := by simp
    rw [e]
    exact readSlots_writeSlots hmask hlen (by simp; simp only [readAvailable] at hlt; omega)
      hrepr

theorem removePtr_empty (hv : Valid N M) {s : Ringbuffer α} (hs : Inv N M s)
    (hempty : readAvailable M s = 0) : removePtr N M s = (none, s) := by
  obtain ⟨hh, ht, hlen, hdN⟩ := hs
  have heq : s.tail = s.head :=
    (tail_eq_head_iff hv.M_pos hh ht).mpr hempty
  simp only [removePtr, if_pos heq]

theorem removePtr_spec (hv : Valid N M) {s : Ringbuffer α} (hs : Inv N M s)
    (hpos : 0 < readAvailable M s) :
    removePtr N M s = ((contents N M s).head?, ⟨s.head, (s.tail + 1) % M, s.data_buff⟩) ∧
    Inv N M (removePtr N M s).2 ∧
    readAvailable M (removePtr N M s).2 = readAvailable M s - 1 ∧
    contents N M (removePtr N M s).2 = (contents N M s).tail := by
  obtain ⟨hh, ht, hlen, hdN⟩ := hs
  have hM := hv.M_pos
  have hmask : ∀ y, y &&& buffer_mask N = y % N := fun y => hv.mask y
  have hne : ¬ (s.tail = s.head) := by
    intro h2
    have h3 : wsub M s.head s.tail = 0 := (tail_eq_head_iff hM hh ht).mp h2
    simp only [readAvailable] at hpos
    omega
  obtain ⟨e, he⟩ : ∃ e, wsub M s.head s.tail = e + 1 := by
    simp only [readAvailable] at hpos
    exact ⟨wsub M s.head s.tail - 1, by omega⟩
  have hcont : contents N M s
      = s.data_buff.getD (s.tail &&& buffer_mask N) default
          :: readSlots N s.data_buff (s.tail + 1) e := by
    simp only [contents, he]
    rfl
  have heq : removePtr N M s =
      (some (s.data_buff.getD (s.tail &&& buffer_mask N) default),
       ⟨s.head, (s.tail + 1) % M, s.data_buff⟩) := by
    simp only [removePtr, if_neg hne]
  have hra : readAvailable M (removePtr N M s).2 = readAvailable M s - 1 := by
    rw [heq]
    simp only [readAvailable]
    exact wsub_sub hM (by omega)
  refine ⟨?_, ⟨?_, ?_, ?_, ?_⟩, hra, ?_⟩
  · rw [heq, hcont]
    rfl
  · rw [heq]
    exact hh
  · rw [heq]
    exact Nat.mod_lt _ hM
  · rw [heq]
    exact hlen
  · have := hra
    rw [heq] at this ⊢
    simp only [readAvailable] at this ⊢
    rw [this]
    omega
  · rw [heq, hcont]
    simp only [contents]
    have hra2 : wsub M s.head ((s.tail + 1) % M) = e := by
      have := @wsub_sub M s.head s.tail 1 hM (by omega)
      omega
    rw [hra2]
    have hmod : readSlots N s.data_buff ((s.tail + 1) % M) e
        = readSlots N s.data_buff (s.tail + 1) e :=
      readSlots_mod_t hmask (Nat.mod_mod_of_dvd _ hv.dvd) _ _
    rw [hmod]
    rfl

theorem removeOne_empty (hv : Valid N M) {s : Ringbuffer α} (hs : Inv N M s)
    (hempty : readAvailable M s = 0) : removeOne M s = (false, s) := by
  obtain ⟨hh, ht, hlen, hdN⟩ := hs
  have heq : s.tail = s.head := (tail_eq_head_iff hv.M_pos hh ht).mpr hempty
  simp only [removeOne, if_pos heq]

theorem removeOne_spec (hv : Valid N M) {s : Ringbuffer α} (hs : Inv N M s)
    (hpos : 0 < readAvailable M s) :
    removeOne M s = (true, ⟨s.head, (s.tail + 1) % M, s.data_buff⟩) ∧
    Inv N M (removeOne M s).2 ∧
    readAvailable M (removeOne M s).2 = readAvailable M s - 1 := by
  obtain ⟨hh, ht, hlen, hdN⟩ := hs
  have hM := hv.M_pos
  have hne : ¬ (s.tail = s.head) := by
    intro h2
    have h3 : wsub M s.head s.tail = 0 := (tail_eq_head_iff hM hh ht).mp h2
    simp only [readAvailable] at hpos
    omega
  have heq : removeOne M s = (true, ⟨s.head, (s.tail + 1) % M, s.data_buff⟩) := by
    simp only [removeOne, if_neg hne]
  have hra : readAvailable M (removeOne M s).2 = readAvailable M s - 1 := by
    rw [heq]
    simp only [readAvailable]
    refine wsub_sub hM ?_
    simp only [readAvailable] at hpos
    omega
  refine ⟨heq, ⟨?_, ?_, ?_, ?_⟩, hra⟩
  · rw [heq]
    exact hh
  · rw [heq]
    exact Nat.mod_lt _ hM
  · rw [heq]
    exact hlen
  · rw [heq] at hra ⊢
    simp only [readAvailable] at hra ⊢
    omega

theorem removeCnt_spec (hv : Valid N M) {s : Ringbuffer α} (hs : Inv N M s)
    (cnt : Nat) :
    removeCnt M s cnt = (min cnt (readAvailable M s),
      ⟨s.head, (s.tail + min cnt (readAvailable M s)) % M, s.data_buff⟩) ∧
    Inv N M (removeCnt M s cnt).2 ∧
    readAvailable M (removeCnt M s cnt).2
        = readAvailable M s - min cnt (readAvailable M s) ∧
    contents N M (removeCnt M s cnt).2
        = (contents N M s).drop (min cnt (readAvailable M s)) := by
  obtain ⟨hh, ht, hlen, hdN⟩ := hs
  have hM := hv.M_pos
  have hmask : ∀ y, y &&& buffer_mask N = y % N := fun y => hv.mask y
  have hmin : (if cnt > wsub M s.head s.tail then wsub M s.head s.tail else cnt)
      = min cnt (wsub M s.head s.tail) := by
    split <;> omega
  have heq : removeCnt M s cnt = (min cnt (readAvailable M s),
      ⟨s.head, (s.tail + min cnt (readAvailable M s)) % M, s.data_buff⟩) := by
    simp only [removeCnt, hmin]
    rfl
  have hra : readAvailable M (removeCnt M s cnt).2
      = readAvailable M s - min cnt (readAvailable M s) := by
    rw [heq]
    simp only [readAvailable]
    exact wsub_sub hM (by omega)
  refine ⟨heq, ⟨?_, ?_, ?_, ?_⟩, hra, ?_⟩
  · rw [heq]
    exact hh
  · rw [heq]
    exact Nat.mod_lt _ hM
  · rw [heq]
    exact hlen
  · rw [heq] at hra ⊢
    simp only [readAvailable] at hra ⊢
    omega
  · rw [heq]
    simp only [contents]
    have hra2 : wsub M s.head ((s.tail + min cnt (readAvailable M s)) % M)
        = wsub M s.head s.tail - min cnt (readAvailable M s) :=
      wsub_sub hM (by simp only [readAvailable]; omega)
    rw [hra2]
    rw [readSlots_mod_t hmask (Nat.mod_mod_of_dvd _ hv.dvd), readSlots_drop]

theorem writeBuff_spec (hv : Valid N M) {s : Ringbuffer α} (hs : Inv N M s)
    (buff : List α) (count : Nat) :
    (writeBuff N M s buff count).1 = min count (writeAvailable N M s) ∧
    (writeBuff N M s buff count).2.head
        = (s.head + min count (writeAvailable N M s)) % M ∧
    (writeBuff N M s buff count).2.tail = s.tail ∧
    Inv N M (writeBuff N M s buff count).2 ∧
    readAvailable M (writeBuff N M s buff count).2
        = readAvailable M s + min count (writeAvailable N M s) ∧
    (count ≤ buff.length →
      contents N M (writeBuff N M s buff count).2
        = contents N M s ++ buff.take (min count (writeAvailable N M s))) := by
  obtain ⟨hh, ht, hlen, hdN⟩ := hs
  have hM := hv.M_pos
  have hmask : ∀ y, y &&& buffer_mask N = y % N := fun y => hv.mask y
  have havail : wsub M N (wsub M s.head s.tail) = N - wsub M s.head s.tail :=
    wsub_of_sub hM hdN (by have := hv.N_lt_M; omega)
  have hwa : writeAvailable N M s = N - wsub M s.head s.tail := havail
  have hmin : (if wsub M N (wsub M s.head s.tail) < count
        then wsub M N (wsub M s.head s.tail) else count)
      = min count (writeAvailable N M s) := by
    rw [hwa] at *
    rw [havail]
    split <;> omega
  have heq : writeBuff N M s buff count = (min count (writeAvailable N M s),
      ⟨(s.head + min count (writeAvailable N M s)) % M, s.tail,
       writeSlots N s.data_buff (buff.take (min count (writeAvailable N M s)))
         s.head⟩) := by
    simp only [writeBuff, hmin]
  have hsum : wsub M s.head s.tail + min count (writeAvailable N M s) ≤ N := by
    rw [hwa]
    omega
  have hra : readAvailable M (writeBuff N M s buff count).2
      = readAvailable M s + min count (writeAvailable N M s) := by
    rw [heq]
    simp only [readAvailable]
    rw [wsub_add_left hM]
    refine Nat.mod_eq_of_lt ?_
    have := hv.N_lt_M
    omega
  refine ⟨?_, ?_, ?_, ⟨?_, ?_, ?_, ?_⟩, hra, ?_⟩
  · rw [heq]
  · rw [heq]
  · rw [heq]
  · rw [heq]
    exact Nat.mod_lt _ hM
  · rw [heq]
    exact ht
  · rw [heq]
    simp only
    rw [writeSlots_length]
    exact hlen
  · rw [heq] at hra ⊢
    simp only [readAvailable] at hra ⊢
    omega
  · intro hcount
    rw [heq]
    simp only [contents]
    rw [heq] at hra
    simp only [readAvailable] at hra
    rw [hra]
    have hlen2 : (buff.take (min count (writeAvailable N M s))).length
        = min count (writeAvailable N M s) := by
      rw [List.length_take]
      omega
    have hrepr : s.head % N = (s.tail + wsub M s.head s.tail) % N :=
      wsub_mod_small hM hv.dvd s.head s.tail
    have := @readSlots_writeSlots α _ N hmask s.data_buff
      (buff.take (min count (writeAvailable N M s))) hlen s.tail
      (wsub M s.head s.tail) s.head (by rw [hlen2]; exact hsum) hrepr
    rw [hlen2] at this
    exact this

theorem readBuff_spec (hv : Valid N M) {s : Ringbuffer α} (hs : Inv N M s)
    (count : Nat) :
    (readBuff N M s count).1 = min count (readAvailable M s) ∧
    (readBuff N M s count).2.1
        = (contents N M s).take (min count (readAvailable M s)) ∧
    (readBuff N M s count).2.2
        = ⟨s.head, (s.tail + min count (readAvailable M s)) % M, s.data_buff⟩ ∧
    Inv N M (readBuff N M s count).2.2 ∧
    readAvailable M (readBuff N M s count).2.2
        = readAvailable M s - min count (readAvailable M s) ∧
    contents N M (readBuff N M s count).2.2
        = (contents N M s).drop (min count (readAvailable M s)) := by
  obtain ⟨hh, ht, hlen, hdN⟩ := hs
  have hM := hv.M_pos
  have hmask : ∀ y, y &&& buffer_mask N = y % N := fun y => hv.mask y
  have hmin : (if wsub M s.head s.tail < count then wsub M s.head s.tail else count)
      = min count (readAvailable M s) := by
    simp only [readAvailable]
    split <;> omega
  have heq : readBuff N M s count = (min count (readAvailable M s),
      readSlots N s.data_buff s.tail (min count (readAvailable M s)),
      ⟨s.head, (s.tail + min count (readAvailable M s)) % M, s.data_buff⟩) := by
    simp only [readBuff, hmin]
  have hra : readAvailable M (readBuff N M s count).2.2
      = readAvailable M s - min count (readAvailable M s) := by
    rw [heq]
    simp only [readAvailable]
    exact wsub_sub hM (by omega)
  refine ⟨?_, ?_, ?_, ⟨?_, ?_, ?_, ?_⟩, hra, ?_⟩
  · rw [heq]
  · rw [heq]
    simp only [contents]
    rw [readSlots_take]
    have e : min (min count (readAvailable M s)) (wsub M s.head s.tail)
        = min count (readAvailable M s) := by
      simp only [readAvailable]
      omega
    rw [e]
  · rw [heq]
  · rw [heq]
    exact hh
  · rw [heq]
    exact Nat.mod_lt _ hM
  · rw [heq]
    exact hlen
  · rw [heq] at hra ⊢
    simp only [readAvailable] at hra ⊢
    omega
  · rw [heq]
    simp only [contents]
    have hra2 : wsub M s.head ((s.tail + min count (readAvailable M s)) % M)
        = wsub M s.head s.tail - min count (readAvailable M s) :=
      wsub_sub hM (by simp only [readAvailable]; omega)
    rw [hra2]
    rw [readSlots_mod_t hmask (Nat.mod_mod_of_dvd _ hv.dvd), readSlots_drop]

theorem consumerClear_spec (s : Ringbuffer α) :
    consumerClear s = ⟨s.head, s.head, s.data_buff⟩ ∧
    producerClear s = consumerClear s ∧
    readAvailable M (consumerClear s) = 0 := by
  refine ⟨rfl, rfl, ?_⟩
  simp only [readAvailable, consumerClear]
  exact wsub_self M s.head

theorem inv_consumerClear {s : Ringbuffer α} (hs : Inv N M s) :
    Inv N M (consumerClear s) := by
  obtain ⟨hh, ht, hlen, hdN⟩ := hs
  refine ⟨hh, hh, hlen, ?_⟩
  simp only [consumerClear]
  rw [wsub_self]
  omega

theorem atIdx_spec {s : Ringbuffer α} (hs : Inv N M s)
    (i : Nat) : atIdx N M s i = (contents N M s)[i]? := by
  obtain ⟨hh, ht, hlen, hdN⟩ := hs
  by_cases hle : wsub M s.head s.tail ≤ i
  · simp only [atIdx, if_pos hle]
    symm
    apply List.getElem?_eq_none
    rw [contents_length]
    exact hle
  · simp only [atIdx, if_neg hle]
    simp only [contents]
    rw [readSlots_getElem? _ _ (by omega)]

theorem insertFromCallback_full {s : Ringbuffer α}
    (hfull : readAvailable M s = N) (cb : Unit → α) :
    insertFromCallbackWhenAvailable N M s cb = (false, s, 0) := by
  have h2 : wsub M s.head s.tail = N := hfull
  simp only [insertFromCallbackWhenAvailable, if_pos h2]

theorem insertFromCallback_spec {s : Ringbuffer α}
    (hlt : readAvailable M s ≠ N) (cb : Unit → α) :
    insertFromCallbackWhenAvailable N M s cb
      = (true, (insert N M s (cb ())).2, 1) := by
  have h2 : ¬ (wsub M s.head s.tail = N) := hlt
  simp only [insertFromCallbackWhenAvailable, insert, if_neg h2]

theorem writeBuffLoop_spec (hv : Valid N M) {s : Ringbuffer α} (hs : Inv N M s)
    (buff : List α) {count written : Nat} (cbs : Nat) (hwc : written ≤ count) :
    writeBuffLoop N M s buff count written cbs =
      (written + min (count - written) (writeAvailable N M s),
       ⟨(s.head + min (count - written) (writeAvailable N M s)) % M, s.tail,
        writeSlots N s.data_buff
          ((buff.drop written).take (min (count - written) (writeAvailable N M s)))
          s.head⟩,
       cbs + if 0 < min (count - written) (writeAvailable N M s) then 1 else 0) := by
  obtain ⟨hh, ht, hlen, hdN⟩ := hs
  have hM := hv.M_pos
  have hNM := hv.N_lt_M
  have havail : wsub M N (wsub M s.head s.tail) = N - wsub M s.head s.tail :=
    wsub_of_sub hM hdN (by omega)
  by_cases hw : written < count
  · by_cases ha : wsub M N (wsub M s.head s.tail) = 0
    · rw [writeBuffLoop]
      simp only [dif_pos hw, dif_pos ha]
      have hmin0 : min (count - written) (writeAvailable N M s) = 0 := by
        simp only [writeAvailable]
        omega
      rw [hmin0]
      simp [Nat.mod_eq_of_lt hh, writeSlots]
    · rw [writeBuffLoop]
      simp only [dif_pos hw, dif_neg ha]
      have hw1le : min (count - written) (wsub M N (wsub M s.head s.tail))
          ≤ wsub M N (wsub M s.head s.tail) := by omega
      have hd2 : wsub M ((s.head
            + min (count - written) (wsub M N (wsub M s.head s.tail))) % M) s.tail
          = wsub M s.head s.tail
            + min (count - written) (wsub M N (wsub M s.head s.tail)) := by
        rw [wsub_add_left hM]
        exact Nat.mod_eq_of_lt (by omega)
      by_cases hc1 : count - written
          ≤ wsub M N (wsub M s.head s.tail)
      · have hm1 : min (count - written) (wsub M N (wsub M s.head s.tail))
            = count - written := by omega
        rw [writeBuffLoop]
        simp only [hm1, dif_neg (show ¬ (written + (count - written) < count) by omega)]
        have hm2 : min (count - written) (writeAvailable N M s) = count - written := by
          simp only [writeAvailable]
          omega
        rw [hm2, if_pos (show 0 < count - written by omega)]
      · have hm1 : min (count - written) (wsub M N (wsub M s.head s.tail))
            = wsub M N (wsub M s.head s.tail) := by omega
        rw [writeBuffLoop]
        have hlt2 : written + min (count - written) (wsub M N (wsub M s.head s.tail))
            < count := by omega
        simp only [dif_pos hlt2]
        rw [hm1] at hd2
        have ha2 : wsub M N (wsub M ((s.head
              + wsub M N (wsub M s.head s.tail)) % M) s.tail) = 0 := by
          have e : wsub M s.head s.tail + (N - wsub M s.head s.tail) = N := by omega
          rw [hd2, havail, e, wsub_self]
        simp only [hm1, ha2, dif_pos]
        have hm2 : min (count - written) (writeAvailable N M s)
            = wsub M N (wsub M s.head s.tail) := by
          simp only [writeAvailable]
          omega
        rw [hm2, if_pos (show 0 < wsub M N (wsub M s.head s.tail) by omega)]
  · rw [writeBuffLoop]
    simp only [dif_neg hw]
    have hmin0 : min (count - written) (writeAvailable N M s) = 0 := by omega
    rw [hmin0]
    simp [Nat.mod_eq_of_lt hh, writeSlots]

theorem readBuffLoop_spec (hv : Valid N M) {s : Ringbuffer α} (hs : Inv N M s)
    (acc : List α) {count read : Nat} (cbs : Nat) (hrc : read ≤ count) :
    readBuffLoop N M s acc count read cbs =
      (read + min (count - read) (readAvailable M s),
       acc ++ (contents N M s).take (min (count - read) (readAvailable M s)),
       ⟨s.head, (s.tail + min (count - read) (readAvailable M s)) % M, s.data_buff⟩,
       cbs + if 0 < min (count - read) (readAvailable M s) then 1 else 0) := by
  obtain ⟨hh, ht, hlen, hdN⟩ := hs
  have hM := hv.M_pos
  have hNM := hv.N_lt_M
  by_cases hr : read < count
  · by_cases ha : wsub M s.head s.tail = 0
    · rw [readBuffLoop]
      simp only [dif_pos hr, dif_pos ha]
      have hmin0 : min (count - read) (readAvailable M s) = 0 := by
        simp only [readAvailable]
        omega
      rw [hmin0]
      simp [Nat.mod_eq_of_lt ht]
    · rw [readBuffLoop]
      simp only [dif_pos hr, dif_neg ha]
      have hd2 : wsub M s.head ((s.tail
            + min (count - read) (wsub M s.head s.tail)) % M)
          = wsub M s.head s.tail - min (count - read) (wsub M s.head s.tail) :=
        wsub_sub hM (by omega)
      have hout : readSlots N s.data_buff s.tail
            (min (count - read) (wsub M s.head s.tail))
          = (contents N M s).take (min (count - read) (readAvailable M s)) := by
        simp only [contents, readAvailable]
        rw [readSlots_take]
        have e : min (min (count - read) (wsub M s.head s.tail))
            (wsub M s.head s.tail) = min (count - read) (wsub M s.head s.tail) := by
          omega
        rw [e]
      by_cases hc1 : count - read ≤ wsub M s.head s.tail
      · have hm1 : min (count - read) (wsub M s.head s.tail) = count - read := by
          omega
        rw [readBuffLoop]
        simp only [hm1, dif_neg (show ¬ (read + (count - read) < count) by omega)]
        have hm2 : min (count - read) (readAvailable M s) = count - read := by
          simp only [readAvailable]
          omega
        rw [hm1, hm2] at hout
        rw [hm2, if_pos (show 0 < count - read by omega), hout]
      · have hm1 : min (count - read) (wsub M s.head s.tail)
            = wsub M s.head s.tail := by omega
        rw [readBuffLoop]
        have hlt2 : read + min (count - read) (wsub M s.head s.tail) < count := by
          omega
        simp only [dif_pos hlt2]
        have ha2 : wsub M s.head ((s.tail
              + min (count - read) (wsub M s.head s.tail)) % M) = 0 := by
          rw [hd2, hm1]
          omega
        simp only [ha2, dif_pos]
        have hm2 : min (count - read) (readAvailable M s)
            = wsub M s.head s.tail := by
          simp only [readAvailable]
          omega
        rw [hm1, hm2] at hout
        rw [hm1, hm2, if_pos (show 0 < wsub M s.head s.tail by omega), hout]
  · rw [readBuffLoop]
    simp only [dif_neg hr]
    have hmin0 : min (count - read) (readAvailable M s) = 0 := by omega
    rw [hmin0]
    simp [Nat.mod_eq_of_lt ht]

theorem writeBuffCB_spec (hv : Valid N M) {s : Ringbuffer α} (hs : Inv N M s)
    (buff : List α) (count ctc : Nat) :
    (writeBuffCB N M s buff count ctc).1 = min count (writeAvailable N M s) ∧
    (writeBuffCB N M s buff count ctc).2.1.head
        = (s.head + min count (writeAvailable N M s)) % M ∧
    (writeBuffCB N M s buff count ctc).2.1.tail = s.tail ∧
    Inv N M (writeBuffCB N M s buff count ctc).2.1 ∧
    readAvailable M (writeBuffCB N M s buff count ctc).2.1
        = readAvailable M s + min count (writeAvailable N M s) ∧
    ((writeBuffCB N M s buff count ctc).2.2 = 0
        ↔ count = 0 ∨ writeAvailable N M s = 0) ∧
    (count ≤ buff.length →
      contents N M (writeBuffCB N M s buff count ctc).2.1
        = contents N M s ++ buff.take (min count (writeAvailable N M s))) := by
  obtain ⟨hh, ht, hlen, hdN⟩ := hs
  have hM := hv.M_pos
  have hNM := hv.N_lt_M
  have hmask : ∀ y, y &&& buffer_mask N = y % N := fun y => hv.mask y
  have havail : wsub M N (wsub M s.head s.tail) = N - wsub M s.head s.tail :=
    wsub_of_sub hM hdN (by omega)
  have hwa : writeAvailable N M s = N - wsub M s.head s.tail := havail
  by_cases hc0 : 0 < count
  · by_cases hA0 : wsub M N (wsub M s.head s.tail) = 0
    · have heq : writeBuffCB N M s buff count ctc = (0, s, 0) := by
        simp only [writeBuffCB, if_pos hc0, if_pos hA0]
      have hm0 : min count (writeAvailable N M s) = 0 := by
        rw [hwa]
        omega
      rw [heq, hm0]
      refine ⟨by omega, by simp [Nat.mod_eq_of_lt hh], rfl,
        ⟨hh, ht, hlen, hdN⟩, by simp, ?_, by simp⟩
      simp only [true_iff]
      right
      rw [hwa]
      omega
    · -- first pass runs
      generalize ht0 : (if ctc ≠ 0 ∧ ctc < count then ctc else count) = t0
      have ht0pos : 0 < t0 ∧ t0 ≤ count := by
        rw [← ht0]
        split <;> omega
      generalize hw1e : min t0 (wsub M N (wsub M s.head s.tail)) = w1
      have hw1 : 0 < w1 ∧ w1 ≤ count ∧ w1 ≤ N - wsub M s.head s.tail := by
        rw [← hw1e]
        omega
      have heq1 : writeBuffCB N M s buff count ctc
          = writeBuffLoop N M
              ⟨(s.head + w1) % M, s.tail,
               writeSlots N s.data_buff (buff.take w1) s.head⟩
              buff count w1 1 := by
        simp only [writeBuffCB, if_pos hc0, if_neg hA0, ht0, hw1e]
      have hs1 : Inv N M (⟨(s.head + w1) % M, s.tail,
          writeSlots N s.data_buff (buff.take w1) s.head⟩ : Ringbuffer α) := by
        refine ⟨Nat.mod_lt _ hM, ht, ?_, ?_⟩
        · simp only
          rw [writeSlots_length]
          exact hlen
        · simp only
          rw [wsub_add_left hM, Nat.mod_eq_of_lt (by omega)]
          omega
      have hd1 : wsub M ((s.head + w1) % M) s.tail = wsub M s.head s.tail + w1 := by
        rw [wsub_add_left hM, Nat.mod_eq_of_lt (by omega)]
      have hA1 : writeAvailable N M (⟨(s.head + w1) % M, s.tail,
          writeSlots N s.data_buff (buff.take w1) s.head⟩ : Ringbuffer α)
          = N - (wsub M s.head s.tail + w1) := by
        simp only [writeAvailable]
        rw [hd1]
        exact wsub_of_sub hM
          (show wsub M s.head s.tail + w1 ≤ N by omega)
          (show N - (wsub M s.head s.tail + w1) < M by omega)
      have hloop := writeBuffLoop_spec hv hs1 buff 1 (show w1 ≤ count by omega)
      rw [hA1] at hloop
      generalize hm2e : min (count - w1) (N - (wsub M s.head s.tail + w1)) = m2
        at hloop
      have hm2 : m2 ≤ count - w1 ∧ m2 ≤ N - (wsub M s.head s.tail + w1) := by
        rw [← hm2e]
        omega
      have htot : w1 + m2 = min count (writeAvailable N M s) := by
        rw [hwa, ← hm2e, ← hw1e, ← ht0]
        have := havail
        split <;> omega
      have heq2 : writeBuffCB N M s buff count ctc
          = (w1 + m2,
             ⟨((s.head + w1) % M + m2) % M, s.tail,
              writeSlots N (writeSlots N s.data_buff (buff.take w1) s.head)
                ((buff.drop w1).take m2) ((s.head + w1) % M)⟩,
             1 + if 0 < m2 then 1 else 0) := by
        rw [heq1, hloop]
      have hheadeq : ((s.head + w1) % M + m2) % M = (s.head + (w1 + m2)) % M := by
        rw [Nat.mod_add_mod, Nat.add_assoc]
      refine ⟨?_, ?_, ?_, ?_, ?_, ?_, ?_⟩
      · rw [heq2, htot]
      · rw [heq2]
        simp only
        rw [hheadeq, htot]
      · rw [heq2]
      · rw [heq2]
        refine ⟨Nat.mod_lt _ hM, ht, ?_, ?_⟩
        · simp only
          rw [writeSlots_length, writeSlots_length]
          exact hlen
        · simp only
          rw [hheadeq, wsub_add_left hM, Nat.mod_eq_of_lt (by omega)]
          omega
      · rw [heq2]
        simp only [readAvailable]
        rw [hheadeq, wsub_add_left hM, Nat.mod_eq_of_lt (by omega), htot]
      · rw [heq2]
        simp only
        constructor
        · intro h2
          split at h2 <;> omega
        · intro h2
          rw [hwa] at h2
          omega
      · intro hcb
        rw [heq2]
        simp only [contents]
        rw [hheadeq, wsub_add_left hM, Nat.mod_eq_of_lt
          (show wsub M s.head s.tail + (w1 + m2) < M by omega)]
        have hslots : writeSlots N (writeSlots N s.data_buff (buff.take w1) s.head)
            ((buff.drop w1).take m2) ((s.head + w1) % M)
            = writeSlots N s.data_buff (buff.take (w1 + m2)) s.head := by
          rw [writeSlots_mod_h hmask (Nat.mod_mod_of_dvd _ hv.dvd)]
          conv_rhs => rw [List.take_add, writeSlots_append]
          rw [List.length_take_of_le (show w1 ≤ buff.length by omega)]
        rw [hslots]
        have htklen : (buff.take (w1 + m2)).length = w1 + m2 :=
          List.length_take_of_le (by omega)
        have hrepr : s.head % N = (s.tail + wsub M s.head s.tail) % N :=
          wsub_mod_small hM hv.dvd s.head s.tail
        have hrw := @readSlots_writeSlots α _ N hmask s.data_buff
          (buff.take (w1 + m2)) hlen s.tail (wsub M s.head s.tail) s.head
          (by rw [htklen]; omega) hrepr
        rw [htklen] at hrw
        rw [hrw, htot]
  · have hc0' : count = 0 := by omega
    subst hc0'
    have heq : writeBuffCB N M s buff 0 ctc = (0, s, 0) := by
      simp [writeBuffCB]
    rw [heq]
    refine ⟨by simp, by simp [Nat.mod_eq_of_lt hh], rfl,
      ⟨hh, ht, hlen, hdN⟩, by simp, by simp, by simp⟩

theorem readBuffCB_spec (hv : Valid N M) {s : Ringbuffer α} (hs : Inv N M s)
    (count ctc : Nat) :
    (readBuffCB N M s count ctc).1 = min count (readAvailable M s) ∧
    (readBuffCB N M s count ctc).2.1
        = (contents N M s).take (min count (readAvailable M s)) ∧
    (readBuffCB N M s count ctc).2.2.1
        = ⟨s.head, (s.tail + min count (readAvailable M s)) % M, s.data_buff⟩ ∧
    Inv N M (readBuffCB N M s count ctc).2.2.1 ∧
    readAvailable M (readBuffCB N M s count ctc).2.2.1
        = readAvailable M s - min count (readAvailable M s) ∧
    ((readBuffCB N M s count ctc).2.2.2 = 0 ↔ count = 0 ∨ readAvailable M s = 0) ∧
    contents N M (readBuffCB N M s count ctc).2.2.1
        = (contents N M s).drop (min count (readAvailable M s)) := by
  obtain ⟨hh, ht, hlen, hdN⟩ := hs
  have hM := hv.M_pos
  have hNM := hv.N_lt_M
  have hmask : ∀ y, y &&& buffer_mask N = y % N := fun y => hv.mask y
  by_cases hc0 : 0 < count
  · by_cases hA0 : wsub M s.head s.tail = 0
    · have heq : readBuffCB N M s count ctc = (0, [], s, 0) := by
        simp only [readBuffCB, if_pos hc0, if_pos hA0]
      have hm0 : min count (readAvailable M s) = 0 := by
        simp only [readAvailable]
        omega
      rw [heq, hm0]
      refine ⟨by omega, by simp, ?_, ⟨hh, ht, hlen, hdN⟩, by simp, ?_, by simp⟩
      · simp [Nat.mod_eq_of_lt ht]
      · simp only [true_iff, readAvailable]
        right
        omega
    · generalize ht0 : (if ctc ≠ 0 ∧ ctc < count then ctc else count) = t0
      have ht0pos : 0 < t0 ∧ t0 ≤ count := by
        rw [← ht0]
        split <;> omega
      generalize hr1e : min t0 (wsub M s.head s.tail) = r1
      have hr1 : 0 < r1 ∧ r1 ≤ count ∧ r1 ≤ wsub M s.head s.tail := by
        rw [← hr1e]
        omega
      have heq1 : readBuffCB N M s count ctc
          = readBuffLoop N M
              ⟨s.head, (s.tail + r1) % M, s.data_buff⟩
              (readSlots N s.data_buff s.tail r1) count r1 1 := by
        simp only [readBuffCB, if_pos hc0, if_neg hA0, ht0, hr1e]
      have hd1 : wsub M s.head ((s.tail + r1) % M)
          = wsub M s.head s.tail - r1 := wsub_sub hM (by omega)
      have hs1 : Inv N M (⟨s.head, (s.tail + r1) % M, s.data_buff⟩ : Ringbuffer α) := by
        refine ⟨hh, Nat.mod_lt _ hM, hlen, ?_⟩
        simp only
        rw [hd1]
        omega
      have hloop := readBuffLoop_spec hv hs1 (readSlots N s.data_buff s.tail r1) 1
        (show r1 ≤ count by omega)
      have hA1 : readAvailable M (⟨s.head, (s.tail + r1) % M,
          s.data_buff⟩ : Ringbuffer α) = wsub M s.head s.tail - r1 := hd1
      rw [hA1] at hloop
      generalize hm2e : min (count - r1) (wsub M s.head s.tail - r1) = m2 at hloop
      have hm2 : m2 ≤ count - r1 ∧ m2 ≤ wsub M s.head s.tail - r1 := by
        rw [← hm2e]
        omega
      have htot : r1 + m2 = min count (readAvailable M s) := by
        simp only [readAvailable]
        rw [← hm2e, ← hr1e, ← ht0]
        split <;> omega
      have hcont1 : contents N M (⟨s.head, (s.tail + r1) % M,
          s.data_buff⟩ : Ringbuffer α) = (contents N M s).drop r1 := by
        simp only [contents]
        rw [hd1]
        rw [readSlots_mod_t hmask (Nat.mod_mod_of_dvd _ hv.dvd), readSlots_drop]
      have heq2 : readBuffCB N M s count ctc
          = (r1 + m2,
             readSlots N s.data_buff s.tail r1 ++ ((contents N M s).drop r1).take m2,
             ⟨s.head, ((s.tail + r1) % M + m2) % M, s.data_buff⟩,
             1 + if 0 < m2 then 1 else 0) := by
        rw [heq1, hloop, hcont1]
      have htaileq : ((s.tail + r1) % M + m2) % M = (s.tail + (r1 + m2)) % M := by
        rw [Nat.mod_add_mod, Nat.add_assoc]
      have hd2 : wsub M s.head ((s.tail + (r1 + m2)) % M)
          = wsub M s.head s.tail - (r1 + m2) := wsub_sub hM (by omega)
      refine ⟨?_, ?_, ?_, ?_, ?_, ?_, ?_⟩
      · rw [heq2, htot]
      · rw [heq2]
        simp only
        have hout1 : readSlots N s.data_buff s.tail r1
            = (contents N M s).take r1 := by
          simp only [contents]
          rw [readSlots_take]
          have e : min r1 (wsub M s.head s.tail) = r1 := by omega
          rw [e]
        rw [hout1, ← List.take_add, htot]
      · rw [heq2]
        simp only
        rw [htaileq, htot]
      · rw [heq2]
        refine ⟨hh, Nat.mod_lt _ hM, hlen, ?_⟩
        simp only
        rw [htaileq, hd2]
        omega
      · rw [heq2]
        simp only [readAvailable]
        rw [htaileq, hd2, htot]
        simp only [readAvailable]
      · rw [heq2]
        simp only
        constructor
        · intro h2
          split at h2 <;> omega
        · intro h2
          simp only [readAvailable] at h2
          omega
      · rw [heq2]
        simp only [contents]
        rw [htaileq, hd2]
        rw [readSlots_mod_t hmask (Nat.mod_mod_of_dvd _ hv.dvd), readSlots_drop]
        rw [htot]
  · have hc0' : count = 0 := by omega
    subst hc0'
    have heq : readBuffCB N M s 0 ctc = (0, [], s, 0) := by
      simp [readBuffCB]
    rw [heq]
    refine ⟨by simp, by simp, by simp [Nat.mod_eq_of_lt ht], ⟨hh, ht, hlen, hdN⟩,
      by simp, by simp, by simp⟩

theorem inv_insert (hv : Valid N M) {s : Ringbuffer α} (hs : Inv N M s) (x : α) :
    Inv N M (insert N M s x).2 := by
  by_cases hfull : readAvailable M s = N
  · rw [insert_full hfull]
    exact hs
  · have hlt : readAvailable M s < N := by
      have := hs.2.2.2
      simp only [readAvailable] at hfull ⊢
      omega
    exact (insert_spec hv hs x hlt).2.1

theorem inv_insertFromCallback (hv : Valid N M) {s : Ringbuffer α}
    (hs : Inv N M s) (cb : Unit → α) :
    Inv N M (insertFromCallbackWhenAvailable N M s cb).2.1 := by
  by_cases hfull : readAvailable M s = N
  · rw [insertFromCallback_full hfull]
    exact hs
  · rw [insertFromCallback_spec hfull]
    exact inv_insert hv hs (cb ())

theorem inv_removeOne (hv : Valid N M) {s : Ringbuffer α} (hs : Inv N M s) :
    Inv N M (removeOne M s).2 := by
  by_cases hpos : 0 < readAvailable M s
  · exact (removeOne_spec hv hs hpos).2.1
  · rw [removeOne_empty hv hs (by omega)]
    exact hs

theorem inv_removePtr (hv : Valid N M) {s : Ringbuffer α} (hs : Inv N M s) :
    Inv N M (removePtr N M s).2 := by
  by_cases hpos : 0 < readAvailable M s
  · exact (removePtr_spec hv hs hpos).2.1
  · rw [removePtr_empty hv hs (by omega)]
    exact hs

theorem inv_step (hv : Valid N M) {s s2 : Ringbuffer α} (hs : Inv N M s)
    (hstep : Step N M s s2) : Inv N M s2 := by
  cases hstep with
  | of_insert x => exact inv_insert hv hs x
  | of_insertFromCallback cb => exact inv_insertFromCallback hv hs cb
  | of_removeOne => exact inv_removeOne hv hs
  | of_removeCnt cnt => exact (removeCnt_spec hv hs cnt).2.1
  | of_removePtr => exact inv_removePtr hv hs
  | of_writeBuff buff count => exact (writeBuff_spec hv hs buff count).2.2.2.1
  | of_readBuff count => exact (readBuff_spec hv hs count).2.2.2.1
  | of_writeBuffCB buff count ctc =>
      exact (writeBuffCB_spec hv hs buff count ctc).2.2.2.1
  | of_readBuffCB count ctc => exact (readBuffCB_spec hv hs count ctc).2.2.2.1
  | of_producerClear => exact inv_consumerClear hs
  | of_consumerClear => exact inv_consumerClear hs

theorem inv_reachable (hv : Valid N M) {init s : Ringbuffer α}
    (hinit : Inv N M init) (h : Reachable N M init s) : Inv N M s := by
  induction h with
  | refl => exact hinit
  | tail hr hstep ih => exact inv_step hv ih hstep

theorem insertList_spec (hv : Valid N M) {s : Ringbuffer α} (hs : Inv N M s)
    {xs : List α} (hfit : readAvailable M s + xs.length ≤ N) :
    (insertList N M s xs).1 = true ∧
    Inv N M (insertList N M s xs).2 ∧
    readAvailable M (insertList N M s xs).2 = readAvailable M s + xs.length ∧
    contents N M (insertList N M s xs).2 = contents N M s ++ xs := by
  induction xs generalizing s with
  | nil =>
    refine ⟨rfl, hs, by simp [insertList], by simp [insertList]⟩
  | cons x rest ih =>
    have hlt : readAvailable M s < N := by
      simp only [List.length_cons] at hfit
      omega
    obtain ⟨heq, hinv1, hra1, hcont1⟩ := insert_spec hv hs x hlt
    have hfit2 : readAvailable M (insert N M s x).2 + rest.length ≤ N := by
      rw [hra1]
      simp only [List.length_cons] at hfit
      omega
    obtain ⟨ih1, ih2, ih3, ih4⟩ := ih hinv1 hfit2
    simp only [insertList]
    refine ⟨?_, ih2, ?_, ?_⟩
    · rw [ih1, heq]
      simp
    · rw [ih3, hra1]
      simp only [List.length_cons]
      omega
    · rw [ih4, hcont1]
      simp

theorem removeList_spec (hv : Valid N M) {s : Ringbuffer α} (hs : Inv N M s)
    {k : Nat} (hk : k ≤ readAvailable M s) :
    (removeList N M s k).1 = ((contents N M s).take k).map some ∧
    Inv N M (removeList N M s k).2 ∧
    readAvailable M (removeList N M s k).2 = readAvailable M s - k ∧
    contents N M (removeList N M s k).2 = (contents N M s).drop k := by
  induction k generalizing s with
  | zero =>
    refine ⟨by simp [removeList], hs, by simp [removeList], by simp [removeList]⟩
  | succ k2 ih =>
    have hpos : 0 < readAvailable M s := by omega
    obtain ⟨heq, hinv1, hra1, hcont1⟩ := removePtr_spec hv hs hpos
    have hk2 : k2 ≤ readAvailable M (removePtr N M s).2 := by
      rw [hra1]
      omega
    obtain ⟨ih1, ih2, ih3, ih4⟩ := ih hinv1 hk2
    have hne : contents N M s ≠ [] := by
      intro h2
      have := @contents_length α _ N M s
      rw [h2] at this
      simp at this
      omega
    obtain ⟨c0, ctl, hcl⟩ : ∃ c0 ctl, contents N M s = c0 :: ctl := by
      cases hcl2 : contents N M s with
      | nil => exact absurd hcl2 hne
      | cons a b => exact ⟨a, b, rfl⟩
    simp only [removeList]
    refine ⟨?_, ih2, ?_, ?_⟩
    · rw [ih1, hcont1, heq, hcl]
      simp
    · rw [ih3, hra1]
      omega
    · rw [ih4, hcont1, hcl]
      simp

end OpSpecs

section Claims

/-- C1: for every valid instantiation (power-of-two capacity `N`, unsigned
counter type wide enough that `N <= 2^(width-1)`, i.e. `2*N <= M`), starting
from a default-constructed (empty, `head = tail = 0`) buffer with arbitrary
initial array contents, inserting any sequence of `K <= N` values via
`insert` and then removing `K` values via `remove` yields exactly the same
values in the same order (FIFO), with every insert and remove succeeding. -/
theorem C1_fifo_roundtrip {α : Type} [Inhabited α] {N M : Nat} (hv : Valid N M)
    (buff0 : List α) (hlen : buff0.length = N) (vs : List α) (hK : vs.length ≤ N) :
    (insertList N M ⟨0, 0, buff0⟩ vs).1 = true ∧
    (removeList N M (insertList N M ⟨0, 0, buff0⟩ vs).2 vs.length).1
      = vs.map some := by
  have hM := hv.M_pos
  have hs0 : Inv N M (⟨0, 0, buff0⟩ : Ringbuffer α) :=
    ⟨hM, hM, hlen, by show wsub M 0 0 ≤ N; rw [wsub_self]; omega⟩
  have hra0 : readAvailable M (⟨0, 0, buff0⟩ : Ringbuffer α) = 0 := wsub_self M 0
  have hcont0 : contents N M (⟨0, 0, buff0⟩ : Ringbuffer α) = [] := by
    show readSlots N buff0 0 (wsub M 0 0) = []
    rw [wsub_self]
    rfl
  obtain ⟨h1, h2, h3, h4⟩ := insertList_spec hv hs0
    (show readAvailable M (⟨0, 0, buff0⟩ : Ringbuffer α) + vs.length ≤ N by
      rw [hra0]; omega)
  refine ⟨h1, ?_⟩
  obtain ⟨r1, _, _, _⟩ := removeList_spec hv h2
    (show vs.length ≤ readAvailable M (insertList N M ⟨0, 0, buff0⟩ vs).2 by
      rw [h3, hra0]; omega)
  rw [r1, h4, hcont0]
  simp

/-- C2: every state reachable from a matching initialization
(`head == tail`) by any sequence of the public operations keeps the
wrapping difference `head - tail` in `[0, N]`, and that difference is the
occupied-slot count (the length of the unread FIFO sequence). -/
theorem C2_occupancy_invariant {α : Type} [Inhabited α] {N M : Nat}
    (hv : Valid N M) (c : Nat) (hc : c < M) (buff0 : List α)
    (hlen : buff0.length = N) {s : Ringbuffer α}
    (h : Reachable N M ⟨c, c, buff0⟩ s) :
    wsub M s.head s.tail ≤ N ∧ (contents N M s).length = wsub M s.head s.tail := by
  have hinit : Inv N M (⟨c, c, buff0⟩ : Ringbuffer α) :=
    ⟨hc, hc, hlen, by show wsub M c c ≤ N; rw [wsub_self]; omega⟩
  have hfin := inv_reachable hv hinit h
  exact ⟨hfin.2.2.2, contents_length s⟩

/-- C3: on every state reachable from a matching initialization by the
public operations (in particular by any sequence of inserts and removes
from an empty buffer), `readAvailable() + writeAvailable() = N`. -/
theorem C3_available_sum {α : Type} [Inhabited α] {N M : Nat} (hv : Valid N M)
    (c : Nat) (hc : c < M) (buff0 : List α) (hlen : buff0.length = N)
    {s : Ringbuffer α} (h : Reachable N M ⟨c, c, buff0⟩ s) :
    readAvailable M s + writeAvailable N M s = N := by
  have hinit : Inv N M (⟨c, c, buff0⟩ : Ringbuffer α) :=
    ⟨hc, hc, hlen, by show wsub M c c ≤ N; rw [wsub_self]; omega⟩
  have hfin := inv_reachable hv hinit h
  have hd := hfin.2.2.2
  simp only [readAvailable, writeAvailable]
  rw [wsub_of_sub hv.M_pos hd (by have := hv.N_lt_M; omega)]
  omega

/-- C4: `insert(value)` returns `false` and leaves the entire state
unchanged exactly when the buffer is full (`head - tail = N`); otherwise it
writes `value` into slot `head & mask`, publishes `head + 1`, returns
`true`, and the new FIFO contents are the old ones with `value` appended. -/
theorem C4_insert_all_or_nothing {α : Type} [Inhabited α] {N M : Nat}
    (hv : Valid N M) {s : Ringbuffer α} (hs : Inv N M s) (x : α) :
    (readAvailable M s = N → insert N M s x = (false, s)) ∧
    (readAvailable M s ≠ N →
      insert N M s x =
        (true, ⟨(s.head + 1) % M, s.tail,
                s.data_buff.set (s.head &&& buffer_mask N) x⟩) ∧
      contents N M (insert N M s x).2 = contents N M s ++ [x]) := by
  refine ⟨fun h => insert_full h x, fun h => ?_⟩
  have hlt : readAvailable M s < N := by
    have := hs.2.2.2
    simp only [readAvailable] at h ⊢
    omega
  obtain ⟨heq, _, _, hcont⟩ := insert_spec hv hs x hlt
  exact ⟨heq, hcont⟩

/-- C5: `remove(T*)` returns `false` (`none`) and leaves the state and the
output location unchanged exactly when the buffer is empty
(`readAvailable() = 0`), and `readBuff` on an empty buffer returns 0; when
non-empty, `remove` yields the oldest unread element (the head of the FIFO
contents), publishes `tail + 1`, and succeeds. -/
theorem C5_remove_empty_behavior {α : Type} [Inhabited α] {N M : Nat}
    (hv : Valid N M) {s : Ringbuffer α} (hs : Inv N M s) :
    (readAvailable M s = 0 →
      removePtr N M s = (none, s) ∧ ∀ cnt, (readBuff N M s cnt).1 = 0) ∧
    (0 < readAvailable M s →
      removePtr N M s
        = ((contents N M s).head?, ⟨s.head, (s.tail + 1) % M, s.data_buff⟩) ∧
      (removePtr N M s).1 ≠ none) := by
  constructor
  · intro h0
    refine ⟨removePtr_empty hv hs h0, fun cnt => ?_⟩
    rw [(readBuff_spec hv hs cnt).1, h0]
    omega
  · intro hpos
    obtain ⟨heq, _, _, _⟩ := removePtr_spec hv hs hpos
    refine ⟨heq, ?_⟩
    have hne : contents N M s ≠ [] := by
      intro h2
      have := @contents_length α _ N M s
      rw [h2] at this
      simp at this
      omega
    rw [heq]
    simp only [ne_eq]
    cases hcl : contents N M s with
    | nil => exact absurd hcl hne
    | cons a b => simp

/-- C6: the single-shot `writeBuff(src, count)` transfers exactly
`min(count, writeAvailable())` elements in FIFO position, publishes the
counter once (the new `head` is the old one advanced by that amount) and
returns that number; symmetrically `readBuff(dst, count)` transfers and
returns exactly `min(count, readAvailable())` — never more than requested
and never more than available. -/
theorem C6_bulk_single_shot {α : Type} [Inhabited α] {N M : Nat}
    (hv : Valid N M) {s : Ringbuffer α} (hs : Inv N M s) (src : List α)
    (count : Nat) (hsrc : count ≤ src.length) :
    (writeBuff N M s src count).1 = min count (writeAvailable N M s) ∧
    contents N M (writeBuff N M s src count).2
      = contents N M s ++ src.take (min count (writeAvailable N M s)) ∧
    (writeBuff N M s src count).2.head
      = (s.head + (writeBuff N M s src count).1) % M ∧
    (writeBuff N M s src count).2.tail = s.tail ∧
    (readBuff N M s count).1 = min count (readAvailable M s) ∧
    (readBuff N M s count).2.1
      = (contents N M s).take (min count (readAvailable M s)) ∧
    contents N M (readBuff N M s count).2.2
      = (contents N M s).drop (min count (readAvailable M s)) ∧
    (readBuff N M s count).2.2.tail = (s.tail + (readBuff N M s count).1) % M ∧
    (readBuff N M s count).2.2.head = s.head := by
  obtain ⟨w1, w2, w3, _, _, w6⟩ := writeBuff_spec hv hs src count
  obtain ⟨r1, r2, r3, _, _, r6⟩ := readBuff_spec hv hs count
  refine ⟨w1, w6 hsrc, ?_, w3, r1, r2, r6, ?_, ?_⟩
  · rw [w1, w2]
  · rw [r1, r3]
  · rw [r3]

/-- C7 (amended): in the sequential (quiescent) semantics, the multi-pass
`writeBuff(src, count, count_to_callback, callback)` and the mirror
`readBuff` transfer exactly `min(count, available)` elements in FIFO order
and return that count; the loop terminates, and the callback site is
reached at least once exactly when an iteration transferred elements (in
particular it is also reached by the final iteration that fully satisfies
the request — not only when the transfer is not fully satisfied yet). -/
theorem C7_callback_loop {α : Type} [Inhabited α] {N M : Nat}
    (hv : Valid N M) {s : Ringbuffer α} (hs : Inv N M s) (buff : List α)
    (count ctc : Nat) (hcb : count ≤ buff.length) :
    (writeBuffCB N M s buff count ctc).1 = min count (writeAvailable N M s) ∧
    contents N M (writeBuffCB N M s buff count ctc).2.1
      = contents N M s ++ buff.take (min count (writeAvailable N M s)) ∧
    ((writeBuffCB N M s buff count ctc).2.2 = 0
      ↔ count = 0 ∨ writeAvailable N M s = 0) ∧
    (readBuffCB N M s count ctc).1 = min count (readAvailable M s) ∧
    (readBuffCB N M s count ctc).2.1
      = (contents N M s).take (min count (readAvailable M s)) ∧
    contents N M (readBuffCB N M s count ctc).2.2.1
      = (contents N M s).drop (min count (readAvailable M s)) ∧
    ((readBuffCB N M s count ctc).2.2.2 = 0
      ↔ count = 0 ∨ readAvailable M s = 0) := by
  obtain ⟨w1, _, _, _, _, w6, w7⟩ := writeBuffCB_spec hv hs buff count ctc
  obtain ⟨r1, r2, _, _, _, r6, r7⟩ := readBuffCB_spec hv hs count ctc
  exact ⟨w1, w7 hcb, w6, r1, r2, r7, r6⟩

/-- C8: `at(i)` returns `nullptr` (`none`) exactly when
`i >= readAvailable()`, and otherwise the `i`-th unread element counting
from the oldest, i.e. the element of slot `(tail + i) & mask`; it is a pure
read of the state.  Equivalently, `at(i)` agrees with indexing the FIFO
contents. -/
theorem C8_at_bounds_check {α : Type} [Inhabited α] {N M : Nat}
    (hv : Valid N M) {s : Ringbuffer α} (hs : Inv N M s) (i : Nat) :
    atIdx N M s i = (contents N M s)[i]? ∧
    (atIdx N M s i = none ↔ readAvailable M s ≤ i) ∧
    (i < readAvailable M s →
      atIdx N M s i
        = some (s.data_buff.getD ((s.tail + i) &&& buffer_mask N) default)) := by
  refine ⟨atIdx_spec hs i, ?_, ?_⟩
  · constructor
    · intro h2
      by_contra hgt
      have hlt : i < wsub M s.head s.tail := by
        simp only [readAvailable] at hgt
        omega
      simp only [atIdx, if_neg (by omega : wsub M s.head s.tail ≤ i → False)] at h2
      simp at h2
    · intro h2
      have h3 : wsub M s.head s.tail ≤ i := h2
      simp only [atIdx, if_pos h3]
  · intro hlt
    simp only [readAvailable] at hlt
    simp only [atIdx, if_neg (by omega : wsub M s.head s.tail ≤ i → False)]

/-- C9 (amended): `producerClear()` simply delegates to `consumerClear()`:
both reset the consumer counter `tail` to the producer counter `head`
(observed with a relaxed load) while leaving `head` unchanged — it does
not reset `head` to `tail`; after either call the buffer is empty
(`readAvailable() = 0`) and the data array is untouched. -/
theorem C9_clears {α : Type} [Inhabited α] (M : Nat) (s : Ringbuffer α) :
    producerClear s = consumerClear s ∧
    (consumerClear s).tail = s.head ∧
    (consumerClear s).head = s.head ∧
    (consumerClear s).data_buff = s.data_buff ∧
    readAvailable M (producerClear s) = 0 ∧
    readAvailable M (consumerClear s) = 0 := by
  refine ⟨rfl, rfl, rfl, rfl, ?_, ?_⟩ <;>
    exact wsub_self M s.head

/-- C10: `insertFromCallbackWhenAvailable(cb)` on a full buffer returns
`false`, never invokes the callback and leaves the state unchanged; on a
non-full buffer it invokes the callback exactly once, inserts its return
value (the resulting state is exactly that of `insert` of the callback's
value, appending it to the FIFO contents and publishing `head + 1`) and
returns `true`. -/
theorem C10_insert_from_callback {α : Type} [Inhabited α] {N M : Nat}
    (hv : Valid N M) {s : Ringbuffer α} (hs : Inv N M s) (cb : Unit → α) :
    (readAvailable M s = N →
      insertFromCallbackWhenAvailable N M s cb = (false, s, 0)) ∧
    (readAvailable M s ≠ N →
      insertFromCallbackWhenAvailable N M s cb
        = (true, (insert N M s (cb ())).2, 1) ∧
      contents N M (insertFromCallbackWhenAvailable N M s cb).2.1
        = contents N M s ++ [cb ()]) := by
  refine ⟨fun h => insertFromCallback_full h cb, fun h => ?_⟩
  have hlt : readAvailable M s < N := by
    have := hs.2.2.2
    simp only [readAvailable] at h ⊢
    omega
  refine ⟨insertFromCallback_spec h cb, ?_⟩
  rw [insertFromCallback_spec h cb]
  exact (insert_spec hv hs (cb ()) hlt).2.2.2

/-- C7 counterexample: with capacity 2, width-2 counters (`M = 4`), an
empty buffer and a request of exactly one element, the single loop
iteration fully satisfies the request, yet the callback site is reached
once — not zero times — refuting the claim that the loop "invokes the
callback only if the transfer is not fully satisfied yet". -/
theorem C7_callback_counterexample :
    writeBuffCB 2 4 (⟨0, 0, [0, 0]⟩ : Ringbuffer Nat) [7] 1 0
      = (1, ⟨1, 0, [7, 0]⟩, 1) := by
  simp [writeBuffCB, writeBuffLoop, wsub, writeSlots, buffer_mask]

/-- C9 counterexample: on the state with `head = 2`, `tail = 0`,
`producerClear()` (which delegates to `consumerClear()`) leaves `head` at 2
and moves `tail` to 2 — it does not reset `head` to the old `tail` (0) and
does not leave `tail` unchanged, refuting the claim as stated. -/
theorem C9_clears_counterexample :
    producerClear (⟨2, 0, [10, 20]⟩ : Ringbuffer Nat) = ⟨2, 2, [10, 20]⟩ ∧
    ¬ ((producerClear (⟨2, 0, [10, 20]⟩ : Ringbuffer Nat)).head = 0 ∧
       (producerClear (⟨2, 0, [10, 20]⟩ : Ringbuffer Nat)).tail = 0) := by
  refine ⟨rfl, ?_⟩
  intro h
  simp [producerClear, consumerClear] at h

theorem valid_two_four : Valid 2 4 := ⟨⟨1, rfl⟩, ⟨2, rfl⟩, by norm_num⟩

theorem inv_example : Inv 2 4 (⟨0, 0, [5, 6]⟩ : Ringbuffer Nat) :=
  ⟨by norm_num, by norm_num, rfl, by decide⟩

theorem inv_empty_example : Inv 2 4 (⟨0, 0, [0, 0]⟩ : Ringbuffer Nat) :=
  ⟨by norm_num, by norm_num, rfl, by decide⟩

/-- Witness for C1 at `N = 2`, `M = 4`, inserting the sequence `[3, 9]`. -/
theorem C1_fifo_roundtrip_witness :
    ([3, 9] : List Nat).length ≤ 2 ∧
    ((insertList 2 4 ⟨0, 0, ([0, 0] : List Nat)⟩ [3, 9]).1 = true ∧
     (removeList 2 4 (insertList 2 4 ⟨0, 0, ([0, 0] : List Nat)⟩ [3, 9]).2
        ([3, 9] : List Nat).length).1 = ([3, 9] : List Nat).map some) :=
  ⟨by decide, C1_fifo_roundtrip valid_two_four [0, 0] rfl [3, 9] (by decide)⟩

/-- Witness for C2: one `insert` step from the empty matching state. -/
theorem C2_occupancy_invariant_witness :
    Valid 2 4 ∧
    (wsub 4 (insert 2 4 (⟨0, 0, [5, 6]⟩ : Ringbuffer Nat) 7).2.head
        (insert 2 4 (⟨0, 0, [5, 6]⟩ : Ringbuffer Nat) 7).2.tail ≤ 2 ∧
     (contents 2 4 (insert 2 4 (⟨0, 0, [5, 6]⟩ : Ringbuffer Nat) 7).2).length
       = wsub 4 (insert 2 4 (⟨0, 0, [5, 6]⟩ : Ringbuffer Nat) 7).2.head
           (insert 2 4 (⟨0, 0, [5, 6]⟩ : Ringbuffer Nat) 7).2.tail) :=
  ⟨valid_two_four,
   C2_occupancy_invariant valid_two_four 0 (by decide) [5, 6] rfl
     (Reachable.tail Reachable.refl (Step.of_insert _ 7))⟩

/-- Witness for C3: availability sums to `N` after one `insert` step. -/
theorem C3_available_sum_witness :
    Valid 2 4 ∧
    readAvailable 4 (insert 2 4 (⟨0, 0, [5, 6]⟩ : Ringbuffer Nat) 7).2
      + writeAvailable 2 4 (insert 2 4 (⟨0, 0, [5, 6]⟩ : Ringbuffer Nat) 7).2
      = 2 :=
  ⟨valid_two_four,
   C3_available_sum valid_two_four 0 (by decide) [5, 6] rfl
     (Reachable.tail Reachable.refl (Step.of_insert _ 7))⟩

/-- Witness for C4 on the empty two-slot buffer. -/
theorem C4_insert_all_or_nothing_witness :
    Inv 2 4 (⟨0, 0, [5, 6]⟩ : Ringbuffer Nat) ∧
    ((readAvailable 4 (⟨0, 0, [5, 6]⟩ : Ringbuffer Nat) = 2 →
        insert 2 4 (⟨0, 0, [5, 6]⟩ : Ringbuffer Nat) 7
          = (false, ⟨0, 0, [5, 6]⟩)) ∧
     (readAvailable 4 (⟨0, 0, [5, 6]⟩ : Ringbuffer Nat) ≠ 2 →
        insert 2 4 (⟨0, 0, [5, 6]⟩ : Ringbuffer Nat) 7
          = (true, ⟨(0 + 1) % 4, 0, ([5, 6] : List Nat).set (0 &&& buffer_mask 2) 7⟩) ∧
        contents 2 4 (insert 2 4 (⟨0, 0, [5, 6]⟩ : Ringbuffer Nat) 7).2
          = contents 2 4 (⟨0, 0, [5, 6]⟩ : Ringbuffer Nat) ++ [7])) :=
  ⟨inv_example, C4_insert_all_or_nothing valid_two_four inv_example 7⟩

/-- Witness for C5 on a one-element buffer state. -/
theorem C5_remove_empty_behavior_witness :
    Inv 2 4 (⟨0, 0, [5, 6]⟩ : Ringbuffer Nat) ∧
    ((readAvailable 4 (⟨0, 0, [5, 6]⟩ : Ringbuffer Nat) = 0 →
        removePtr 2 4 (⟨0, 0, [5, 6]⟩ : Ringbuffer Nat) = (none, ⟨0, 0, [5, 6]⟩) ∧
        ∀ cnt, (readBuff 2 4 (⟨0, 0, [5, 6]⟩ : Ringbuffer Nat) cnt).1 = 0) ∧
     (0 < readAvailable 4 (⟨0, 0, [5, 6]⟩ : Ringbuffer Nat) →
        removePtr 2 4 (⟨0, 0, [5, 6]⟩ : Ringbuffer Nat)
          = ((contents 2 4 (⟨0, 0, [5, 6]⟩ : Ringbuffer Nat)).head?,
             ⟨0, (0 + 1) % 4, [5, 6]⟩) ∧
        (removePtr 2 4 (⟨0, 0, [5, 6]⟩ : Ringbuffer Nat)).1 ≠ none)) :=
  ⟨inv_example, C5_remove_empty_behavior valid_two_four inv_example⟩

/-- Witness for C6: bulk transfer of one element into the empty buffer. -/
theorem C6_bulk_single_shot_witness :
    (1 ≤ ([7, 8] : List Nat).length) ∧
    ((writeBuff 2 4 (⟨0, 0, [0, 0]⟩ : Ringbuffer Nat) [7, 8] 1).1
        = min 1 (writeAvailable 2 4 (⟨0, 0, [0, 0]⟩ : Ringbuffer Nat)) ∧
     contents 2 4 (writeBuff 2 4 (⟨0, 0, [0, 0]⟩ : Ringbuffer Nat) [7, 8] 1).2
        = contents 2 4 (⟨0, 0, [0, 0]⟩ : Ringbuffer Nat)
          ++ ([7, 8] : List Nat).take
               (min 1 (writeAvailable 2 4 (⟨0, 0, [0, 0]⟩ : Ringbuffer Nat))) ∧
     (writeBuff 2 4 (⟨0, 0, [0, 0]⟩ : Ringbuffer Nat) [7, 8] 1).2.head
        = (0 + (writeBuff 2 4 (⟨0, 0, [0, 0]⟩ : Ringbuffer Nat) [7, 8] 1).1) % 4 ∧
     (writeBuff 2 4 (⟨0, 0, [0, 0]⟩ : Ringbuffer Nat) [7, 8] 1).2.tail = 0 ∧
     (readBuff 2 4 (⟨0, 0, [0, 0]⟩ : Ringbuffer Nat) 1).1
        = min 1 (readAvailable 4 (⟨0, 0, [0, 0]⟩ : Ringbuffer Nat)) ∧
     (readBuff 2 4 (⟨0, 0, [0, 0]⟩ : Ringbuffer Nat) 1).2.1
        = (contents 2 4 (⟨0, 0, [0, 0]⟩ : Ringbuffer Nat)).take
            (min 1 (readAvailable 4 (⟨0, 0, [0, 0]⟩ : Ringbuffer Nat))) ∧
     contents 2 4 (readBuff 2 4 (⟨0, 0, [0, 0]⟩ : Ringbuffer Nat) 1).2.2
        = (contents 2 4 (⟨0, 0, [0, 0]⟩ : Ringbuffer Nat)).drop
            (min 1 (readAvailable 4 (⟨0, 0, [0, 0]⟩ : Ringbuffer Nat))) ∧
     (readBuff 2 4 (⟨0, 0, [0, 0]⟩ : Ringbuffer Nat) 1).2.2.tail
        = (0 + (readBuff 2 4 (⟨0, 0, [0, 0]⟩ : Ringbuffer Nat) 1).1) % 4 ∧
     (readBuff 2 4 (⟨0, 0, [0, 0]⟩ : Ringbuffer Nat) 1).2.2.head = 0) :=
  ⟨by decide, C6_bulk_single_shot valid_two_four inv_empty_example [7, 8] 1 (by decide)⟩

/-- Witness for the amended C7 on the empty two-slot buffer. -/
theorem C7_callback_loop_witness :
    (1 ≤ ([7] : List Nat).length) ∧
    ((writeBuffCB 2 4 (⟨0, 0, [0, 0]⟩ : Ringbuffer Nat) [7] 1 0).1
        = min 1 (writeAvailable 2 4 (⟨0, 0, [0, 0]⟩ : Ringbuffer Nat)) ∧
     contents 2 4 (writeBuffCB 2 4 (⟨0, 0, [0, 0]⟩ : Ringbuffer Nat) [7] 1 0).2.1
        = contents 2 4 (⟨0, 0, [0, 0]⟩ : Ringbuffer Nat)
          ++ ([7] : List Nat).take
               (min 1 (writeAvailable 2 4 (⟨0, 0, [0, 0]⟩ : Ringbuffer Nat))) ∧
     ((writeBuffCB 2 4 (⟨0, 0, [0, 0]⟩ : Ringbuffer Nat) [7] 1 0).2.2 = 0
        ↔ (1 = 0 ∨ writeAvailable 2 4 (⟨0, 0, [0, 0]⟩ : Ringbuffer Nat) = 0)) ∧
     (readBuffCB 2 4 (⟨0, 0, [0, 0]⟩ : Ringbuffer Nat) 1 0).1
        = min 1 (readAvailable 4 (⟨0, 0, [0, 0]⟩ : Ringbuffer Nat)) ∧
     (readBuffCB 2 4 (⟨0, 0, [0, 0]⟩ : Ringbuffer Nat) 1 0).2.1
        = (contents 2 4 (⟨0, 0, [0, 0]⟩ : Ringbuffer Nat)).take
            (min 1 (readAvailable 4 (⟨0, 0, [0, 0]⟩ : Ringbuffer Nat))) ∧
     contents 2 4 (readBuffCB 2 4 (⟨0, 0, [0, 0]⟩ : Ringbuffer Nat) 1 0).2.2.1
        = (contents 2 4 (⟨0, 0, [0, 0]⟩ : Ringbuffer Nat)).drop
            (min 1 (readAvailable 4 (⟨0, 0, [0, 0]⟩ : Ringbuffer Nat))) ∧
     ((readBuffCB 2 4 (⟨0, 0, [0, 0]⟩ : Ringbuffer Nat) 1 0).2.2.2 = 0
        ↔ (1 = 0 ∨ readAvailable 4 (⟨0, 0, [0, 0]⟩ : Ringbuffer Nat) = 0))) :=
  ⟨by decide, C7_callback_loop valid_two_four inv_empty_example [7] 1 0 (by decide)⟩

/-- Witness for C8 at index 0 of a one-element buffer. -/
theorem C8_at_bounds_check_witness :
    Inv 2 4 (⟨0, 0, [5, 6]⟩ : Ringbuffer Nat) ∧
    (atIdx 2 4 (⟨0, 0, [5, 6]⟩ : Ringbuffer Nat) 0
        = (contents 2 4 (⟨0, 0, [5, 6]⟩ : Ringbuffer Nat))[0]? ∧
     (atIdx 2 4 (⟨0, 0, [5, 6]⟩ : Ringbuffer Nat) 0 = none
        ↔ readAvailable 4 (⟨0, 0, [5, 6]⟩ : Ringbuffer Nat) ≤ 0) ∧
     (0 < readAvailable 4 (⟨0, 0, [5, 6]⟩ : Ringbuffer Nat) →
        atIdx 2 4 (⟨0, 0, [5, 6]⟩ : Ringbuffer Nat) 0
          = some (([5, 6] : List Nat).getD ((0 + 0) &&& buffer_mask 2) default))) :=
  ⟨inv_example, C8_at_bounds_check valid_two_four inv_example 0⟩

/-- Witness for C10 on the empty two-slot buffer with a constant callback. -/
theorem C10_insert_from_callback_witness :
    Inv 2 4 (⟨0, 0, [0, 0]⟩ : Ringbuffer Nat) ∧
    ((readAvailable 4 (⟨0, 0, [0, 0]⟩ : Ringbuffer Nat) = 2 →
        insertFromCallbackWhenAvailable 2 4 (⟨0, 0, [0, 0]⟩ : Ringbuffer Nat)
          (fun _ => 9) = (false, ⟨0, 0, [0, 0]⟩, 0)) ∧
     (readAvailable 4 (⟨0, 0, [0, 0]⟩ : Ringbuffer Nat) ≠ 2 →
        insertFromCallbackWhenAvailable 2 4 (⟨0, 0, [0, 0]⟩ : Ringbuffer Nat)
          (fun _ => 9)
          = (true, (insert 2 4 (⟨0, 0, [0, 0]⟩ : Ringbuffer Nat) 9).2, 1) ∧
        contents 2 4 (insertFromCallbackWhenAvailable 2 4
          (⟨0, 0, [0, 0]⟩ : Ringbuffer Nat) (fun _ => 9)).2.1
          = contents 2 4 (⟨0, 0, [0, 0]⟩ : Ringbuffer Nat) ++ [9])) :=
  ⟨inv_empty_example,
   C10_insert_from_callback valid_two_four inv_empty_example (fun _ => 9)⟩

end Claims

end RingBufferSpec
